import Mathlib

/-!
Verification of the `mmheap` min-max heap package (`mmheap.go`).

The caller's `heap.Interface` sequence is modelled as a `List α` over a linear
order, with `Less i j` reading the values at positions `i` and `j` and
`Swap i j` exchanging them.  All functions of `mmheap.go` are translated below;
Go's `int` indices are `Nat` here (the sole negative-index guard in the source,
`progeny.index < 0`, protects against 64-bit overflow and is vacuous on the
unbounded naturals).  A separate `Option`-valued layer (`PopE`, `MaxE`) models
the out-of-range panics of a slice-backed implementation for the empty-heap
claims.
-/

set_option maxHeartbeats 1000000
set_option autoImplicit false

namespace Mmheap

/-- `parent(index)` from the source: `(index - 1) / 2` (truncated division). -/
def parent (index : Nat) : Nat := (index - 1) / 2

/-- `hasParent(index)` from the source: `index > 0`. -/
def hasParent (index : Nat) : Bool := index > 0

/-- `grandparent(index)` from the source: `parent(parent(index))`. -/
def grandparent (index : Nat) : Nat := parent (parent index)

/-- `hasGrandparent(index)` from the source: `index > 2`. -/
def hasGrandparent (index : Nat) : Bool := index > 2

/-- Fuel-driven bit length: `bitLenGo f x` is the number of binary digits of
`x` provided `x ≤ f`.  The fuel makes the definition structurally recursive so
that the kernel can evaluate it on literals. -/
def bitLenGo : Nat → Nat → Nat
  | 0, _ => 0
  | f + 1, x => if x = 0 then 0 else bitLenGo f (x / 2) + 1

/-- `bits.Len(x)`: the number of binary digits of `x` (0 for 0). -/
def bitLen (x : Nat) : Nat := bitLenGo x x

/-- `isMinLevel(index)` from the source:
`bits.LeadingZeros(uint(index+1)) & 1 == 1` on a 64-bit platform, where
`bits.LeadingZeros(x) = 64 - bits.Len(x)`; the low-bit test `& 1` is rendered
as `% 2`. -/
def isMinLevel (index : Nat) : Bool := (64 - bitLen (index + 1)) % 2 == 1

variable {α : Type} [LinearOrder α] [Inhabited α]

/-- The value stored at position `i` of the sequence. -/
def val (h : List α) (i : Nat) : α := h.getD i default

/-- The caller's `Less(i, j)`: compares the values at positions `i` and `j`. -/
def less (h : List α) (i j : Nat) : Bool := decide (val h i < val h j)

/-- The caller's `Swap(i, j)`: exchanges positions `i` and `j`. -/
def swapSeq (h : List α) (i j : Nat) : List α := (h.set i (val h j)).set j (val h i)

/-- The `relation` enum inside `down`: `self`, `child` and `grandchild`. -/
inductive Relation where
  | self
  | child
  | grandchild
deriving DecidableEq

/-- The candidate scan inside `down`: walk the six progeny in order, stop at
the first candidate whose index is out of range (`>= n`; the source's
`< 0` case cannot occur over `Nat`), and replace the current best whenever
`onMinLevel == Less(candidate, best)`. -/
def pickSmallest (h : List α) (m : Bool) (n : Nat) (best : Nat × Relation) :
    List (Nat × Relation) → Nat × Relation
  | [] => best
  | c :: rest =>
    if c.1 ≥ n then best
    else if m == less h c.1 best.1 then pickSmallest h m n c rest
    else pickSmallest h m n best rest

/-- The progeny array built inside `down`: the two children
(`l = 2*on+1`, `r = l+1`) and the four grandchildren
(`ll = 2*l+1`, `lr = ll+1`, `rl = 2*r+1`, `rr = rl+1`), in source order. -/
def progeny (cur : Nat) : List (Nat × Relation) :=
  [(2 * cur + 1, Relation.child), (2 * cur + 2, Relation.child),
   (2 * (2 * cur + 1) + 1, Relation.grandchild), (2 * (2 * cur + 1) + 2, Relation.grandchild),
   (2 * (2 * cur + 2) + 1, Relation.grandchild), (2 * (2 * cur + 2) + 2, Relation.grandchild)]

/-- The loop of `down(h, i0, n)` from the source, started at `cur` with
`m = isMinLevel(i0)` fixed.  Returns the updated sequence and the final
value of `on` (used for the `on > i0` result). -/
def downLoop (h : List α) (cur : Nat) (m : Bool) (n : Nat) : List α × Nat :=
  match hp : pickSmallest h m n (cur, Relation.self) (progeny cur) with
  | (_, Relation.self) => (h, cur)
  | (s, Relation.child) => (swapSeq h cur s, s)
  | (s, Relation.grandchild) =>
    let h1 := swapSeq h cur s
    let h2 := if m == less h1 (parent s) s then swapSeq h1 s (parent s) else h1
    downLoop h2 s m n
termination_by n - cur
decreasing_by
  unfold progeny at hp
  have key : ∀ (cands : List (Nat × Relation)) (best p : Nat × Relation),
      pickSmallest h m n best cands = p → p = best ∨ (p ∈ cands ∧ p.1 < n) := by
    intro cands
    induction cands with
    | nil => intro best p hp; exact Or.inl hp.symm
    | cons c rest ih =>
      intro best p hp
      rw [pickSmallest] at hp
      split_ifs at hp with h1 h2
      · exact Or.inl hp.symm
      · rcases ih c p hp with h | h
        · exact Or.inr ⟨by simp [h], by simp [h]; omega⟩
        · exact Or.inr ⟨List.mem_cons_of_mem _ h.1, h.2⟩
      · rcases ih best p hp with h | h
        · exact Or.inl h
        · exact Or.inr ⟨List.mem_cons_of_mem _ h.1, h.2⟩
  rcases key _ _ _ hp with heq | ⟨hmem, hlt⟩
  · simp at heq
  · have hlt2 : s < n := hlt
    simp only [List.mem_cons, List.not_mem_nil, or_false, Prod.mk.injEq] at hmem
    rcases hmem with ⟨h1, -⟩ | ⟨h1, -⟩ | ⟨h1, -⟩ | ⟨h1, -⟩ | ⟨h1, -⟩ | ⟨h1, -⟩ <;> omega

/-- `down(h, i0, n)` from the source: sift `i0` down within logical length
`n`; the boolean result is `on > i0`, i.e. whether the node moved. -/
def down (h : List α) (i0 n : Nat) : List α × Bool :=
  let r := downLoop h i0 (isMinLevel i0) n
  (r.1, decide (r.2 > i0))

/-- The grandparent loop of `up` from the source. -/
def upLoop (h : List α) (cur : Nat) (m : Bool) : List α :=
  if hasGrandparent cur then
    if m == less h cur (grandparent cur) then
      upLoop (swapSeq h cur (grandparent cur)) (grandparent cur) m
    else h
  else h
termination_by cur
decreasing_by
  simp only [hasGrandparent, grandparent, parent, decide_eq_true_eq] at *
  omega

/-- `up(h, on)` from the source: one conditional parent swap (which flips the
level parity), then the grandparent loop. -/
def up (h : List α) (cur : Nat) : List α :=
  let m := isMinLevel cur
  if hasParent cur && (m == less h (parent cur) cur) then
    upLoop (swapSeq h cur (parent cur)) (parent cur) (!m)
  else
    upLoop h cur m

/-- The loop of `Init`: `initGo h n k` runs `down(h, i, n)` for
`i = k-1, k-2, ..., 0`. -/
def initGo (h : List α) (n : Nat) : Nat → List α
  | 0 => h
  | k + 1 => initGo (down h k n).1 n k

/-- `Init(h)` from the source: `for i := n/2 - 1; i >= 0; i-- { down(h, i, n) }`. -/
def Init (h : List α) : List α := initGo h h.length (h.length / 2)

/-- `Push(h, x)` from the source: append, then sift the new last index up. -/
def Push (h : List α) (x : α) : List α :=
  let h1 := h ++ [x]
  up h1 (h1.length - 1)

/-- The caller's `Pop` capability (`intHeap.Pop`): remove and return the last
element. -/
def popLast (h : List α) : List α × α := (h.dropLast, val h (h.length - 1))

/-- `Pop(h)` from the source: swap `0` with `n-1`, sift down over logical
length `n-1`, then remove and return the last element. -/
def Pop (h : List α) : List α × α :=
  let n := h.length - 1
  let h1 := swapSeq h 0 n
  popLast (down h1 0 n).1

/-- `Remove(h, i)` from the source: unless `i` is the last index, swap `i`
with the last index and re-sift (down, and if that did not move, up);
then remove and return the last element. -/
def Remove (h : List α) (i : Nat) : List α × α :=
  let n := h.length - 1
  if n ≠ i then
    let h1 := swapSeq h i n
    let r := down h1 i n
    let h2 := if !r.2 then up r.1 i else r.1
    popLast h2
  else
    popLast h

/-- `Fix(h, i)` from the source: sift down at `i`, and if that did not move,
sift up. -/
def Fix (h : List α) (i : Nat) : List α :=
  let r := down h i h.length
  if !r.2 then up r.1 i else r.1

/-- `Max(h)` from the source: index of the maximum element; `0`, `1`, or for
three or more elements whichever of `1` and `2` is larger (`2` when
`Less(1, 2)`). -/
def Max (h : List α) : Nat :=
  match h.length with
  | 1 => 0
  | 2 => 1
  | _ => if less h 1 2 then 2 else 1

/-- Checked `Less`: a slice-backed `heap.Interface` panics on an out-of-range
index; this is modelled by `none`.  Indices are `Int` as in Go. -/
def lessE (h : List α) (i j : Int) : Option Bool :=
  if 0 ≤ i ∧ i < h.length ∧ 0 ≤ j ∧ j < h.length then
    some (less h i.toNat j.toNat)
  else none

/-- Checked `Swap`: `none` on an out-of-range index. -/
def swapE (h : List α) (i j : Int) : Option (List α) :=
  if 0 ≤ i ∧ i < h.length ∧ 0 ≤ j ∧ j < h.length then
    some (swapSeq h i.toNat j.toNat)
  else none

/-- Checked remove-last (`intHeap.Pop` reads index `Len()-1`, which panics on
an empty slice). -/
def popLastE (h : List α) : Option (List α × α) :=
  if h.length = 0 then none else some (popLast h)

/-- `Pop` with checked sequence capabilities: on an empty heap the initial
`Swap(0, -1)` already fails. -/
def PopE (h : List α) : Option (List α × α) :=
  let n : Int := (h.length : Int) - 1
  (swapE h 0 n).bind fun h1 => popLastE (down h1 0 n.toNat).1

/-- `Max` with checked sequence capabilities: on fewer than three elements the
`default` branch calls `Less(1, 2)`, which fails on an empty heap. -/
def MaxE (h : List α) : Option Nat :=
  match h.length with
  | 1 => some 0
  | 2 => some 1
  | _ => (lessE h 1 2).map fun b => if b then 2 else 1

/-- Depth of a node: `floor(log2(index + 1))`, root at depth 0. -/
def depth (index : Nat) : Nat := bitLen (index + 1) - 1

/-- Specification-level min-level test: the depth is even. -/
def minLevelD (index : Nat) : Bool := depth index % 2 == 0

/-- `Descendant i k`: `k` lies in the subtree rooted at `i` (reflexively). -/
inductive Descendant : Nat → Nat → Prop where
  | refl (i : Nat) : Descendant i i
  | left (i : Nat) {k : Nat} : Descendant (2 * i + 1) k → Descendant i k
  | right (i : Nat) {k : Nat} : Descendant (2 * i + 2) k → Descendant i k

/-- Fuel-driven parent-chain walk deciding `Descendant`. -/
def descGo (i : Nat) : Nat → Nat → Bool
  | 0, d => i == d
  | f + 1, d => if d ≤ i then i == d else descGo i f (parent d)

/-- Executable descendant test: walk the parent chain of `d` down to `i`. -/
def isDesc (i d : Nat) : Bool := descGo i d d

/-- The ordering constraint between a node `x` and a node `y` of its subtree:
on a min level `x` is a lower bound, on a max level an upper bound. -/
def cmpOK (h : List α) (x y : Nat) : Prop :=
  if minLevelD x then val h x ≤ val h y else val h y ≤ val h x

/-- The min-max heap invariant over indices `< n`: every node bounds every
descendant in the direction given by its depth parity. -/
def Inv (h : List α) (n : Nat) : Prop :=
  ∀ x, x < n → ∀ y, y < n → Descendant x y → cmpOK h x y

/-- The heap invariant restricted to the subtree rooted at `r`. -/
def SubHeap (h : List α) (n r : Nat) : Prop :=
  ∀ x y, Descendant r x → Descendant x y → y < n → cmpOK h x y

/-- The in-range positions of the subtree rooted at `r`. -/
def posList (n r : Nat) : List Nat := (List.range n).filter (fun j => isDesc r j)

/-- The multiset of values stored in the subtree rooted at `r` (in range). -/
def subVals (h : List α) (n r : Nat) : Multiset α := ((posList n r).map (val h) : List α)

/-- Directed comparison: `≤` on a min level, `≥` on a max level. -/
def dirLE (m : Bool) (a b : α) : Prop := if m then a ≤ b else b ≤ a

/-- The strict "beats" relation used by the candidate scan: a new candidate
replaces the best when `m == Less(candidate, best)`, i.e. when it is strictly
smaller (min level) resp. not smaller (max level). -/
def beats (m : Bool) (a b : α) : Prop := if m then a < b else b ≤ a

/-- `popN h k`: the values returned by `k` successive `Pop` calls. -/
def popN (h : List α) : Nat → List α
  | 0 => []
  | k + 1 => (Pop h).2 :: popN (Pop h).1 k

/-- Boolean form of `cmpOK`, for evaluation on concrete heaps. -/
def cmpOKb (h : List α) (x y : Nat) : Bool :=
  if minLevelD x then decide (val h x ≤ val h y) else decide (val h y ≤ val h x)

/-- Boolean form of the invariant `Inv`, for evaluation on concrete heaps. -/
def invB (h : List α) (n : Nat) : Bool :=
  (List.range n).all fun x => (List.range n).all fun y => !isDesc x y || cmpOKb h x y

/-- One selection step of the candidate scan: replace the best when
`m == Less(candidate, best)`. -/
def pickStep (h : List α) (m : Bool) (best c : Nat × Relation) : Nat × Relation :=
  if m == less h c.1 best.1 then c else best

/-- The candidate scan as the specification describes it: discard every
candidate that is out of range, and fold the selection step over all the
remaining ones. -/
def pickF (h : List α) (m : Bool) (n : Nat) (best : Nat × Relation)
    (cands : List (Nat × Relation)) : Nat × Relation :=
  (cands.filter (fun c => decide (c.1 < n))).foldl (pickStep h m) best

/-- Fuel irrelevance of `bitLenGo`: any fuel at least the argument works. -/
theorem bitLenGo_eq {f f' x : Nat} (hf : x ≤ f) (hf' : x ≤ f') :
    bitLenGo f x = bitLenGo f' x := by
  induction f generalizing f' x with
  | zero =>
    have hx : x = 0 := Nat.le_zero.mp hf
    subst hx
    cases f' with
    | zero => rfl
    | succ f'' => simp [bitLenGo]
  | succ f ih =>
    cases f' with
    | zero =>
      have hx : x = 0 := Nat.le_zero.mp hf'
      subst hx
      simp [bitLenGo]
    | succ f'' =>
      by_cases hx : x = 0
      · subst hx; simp [bitLenGo]
      · simp only [bitLenGo, if_neg hx]
        rw [@ih f'' (x / 2) (by omega) (by omega)]

/-- Recursion equation for `bitLen`. -/
theorem bitLen_rec {x : Nat} (hx : 1 ≤ x) : bitLen x = bitLen (x / 2) + 1 := by
  unfold bitLen
  obtain ⟨f, rfl⟩ : ∃ f, x = f + 1 := ⟨x - 1, by omega⟩
  simp only [bitLenGo, if_neg (by omega : ¬(f + 1 = 0))]
  have := @bitLenGo_eq f ((f + 1) / 2) ((f + 1) / 2) (by omega) (le_refl _)
  omega

theorem bitLen_pos {x : Nat} (hx : 1 ≤ x) : 1 ≤ bitLen x := by
  rw [bitLen_rec hx]; omega

/-- `bitLen x ≤ k` exactly when `x < 2 ^ k`. -/
theorem bitLen_le_iff {x k : Nat} : bitLen x ≤ k ↔ x < 2 ^ k := by
  induction k generalizing x with
  | zero =>
    constructor
    · intro hb
      by_contra hx
      have h1 : 1 ≤ x := by simp at hx; omega
      rw [bitLen_rec h1] at hb; omega
    · intro hx
      norm_num at hx
      subst hx
      simp [bitLen, bitLenGo]
  | succ k ih =>
    by_cases h1 : 1 ≤ x
    · rw [bitLen_rec h1]
      have h2 := @ih (x / 2)
      rw [Nat.pow_succ]
      omega
    · have hx : x = 0 := by omega
      subst hx
      have hpow : (0 : ℕ) < 2 ^ (k + 1) := by positivity
      simp [bitLen, bitLenGo, hpow]

theorem depth_zero : depth 0 = 0 := rfl

theorem depth_left (i : Nat) : depth (2 * i + 1) = depth i + 1 := by
  unfold depth
  have h1 : bitLen (2 * i + 1 + 1) = bitLen (i + 1) + 1 := by
    rw [bitLen_rec (by omega)]
    have h2 : (2 * i + 1 + 1) / 2 = i + 1 := by omega
    rw [h2]
  have h2 : 1 ≤ bitLen (i + 1) := bitLen_pos (by omega)
  omega

theorem depth_right (i : Nat) : depth (2 * i + 2) = depth i + 1 := by
  unfold depth
  have h1 : bitLen (2 * i + 2 + 1) = bitLen (i + 1) + 1 := by
    rw [bitLen_rec (by omega)]
    have h2 : (2 * i + 2 + 1) / 2 = i + 1 := by omega
    rw [h2]
  have h2 : 1 ≤ bitLen (i + 1) := bitLen_pos (by omega)
  omega

/-- Every positive index is a left or a right child of its parent. -/
theorem parent_cases {i : Nat} (hi : 1 ≤ i) :
    i = 2 * parent i + 1 ∨ i = 2 * parent i + 2 := by
  unfold parent; omega

theorem depth_parent {i : Nat} (hi : 1 ≤ i) : depth i = depth (parent i) + 1 := by
  rcases parent_cases hi with hp | hp
  · nth_rewrite 1 [hp]; exact depth_left _
  · nth_rewrite 1 [hp]; exact depth_right _

theorem minLevelD_left (i : Nat) : minLevelD (2 * i + 1) = !minLevelD i := by
  unfold minLevelD
  rw [depth_left]
  rcases Nat.mod_two_eq_zero_or_one (depth i) with h | h <;> simp [Nat.add_mod, h]

theorem minLevelD_right (i : Nat) : minLevelD (2 * i + 2) = !minLevelD i := by
  unfold minLevelD
  rw [depth_right]
  rcases Nat.mod_two_eq_zero_or_one (depth i) with h | h <;> simp [Nat.add_mod, h]

theorem minLevelD_parent {i : Nat} (hi : 1 ≤ i) : minLevelD (parent i) = !minLevelD i := by
  unfold minLevelD
  rw [depth_parent hi]
  rcases Nat.mod_two_eq_zero_or_one (depth (parent i)) with h | h <;> simp [Nat.add_mod, h]

theorem minLevelD_zero : minLevelD 0 = true := rfl

theorem cmpOK_iff {h : List α} {x y : Nat} : cmpOK h x y ↔ cmpOKb h x y = true := by
  unfold cmpOK cmpOKb
  split <;> simp

theorem cmpOK_refl (h : List α) (x : Nat) : cmpOK h x x := by
  unfold cmpOK
  split <;> exact le_refl _

theorem dirLE_true {a b : α} : dirLE true a b ↔ a ≤ b := by unfold dirLE; simp

theorem dirLE_false {a b : α} : dirLE false a b ↔ b ≤ a := by unfold dirLE; simp

theorem beats_true {a b : α} : beats true a b ↔ a < b := by unfold beats; simp

theorem beats_false {a b : α} : beats false a b ↔ b ≤ a := by unfold beats; simp

theorem dirLE_refl (m : Bool) (a : α) : dirLE m a a := by
  unfold dirLE
  split <;> exact le_refl a

theorem dirLE_trans {m : Bool} {a b c : α} (h1 : dirLE m a b) (h2 : dirLE m b c) :
    dirLE m a c := by
  cases m
  · rw [dirLE_false] at *
    exact le_trans h2 h1
  · rw [dirLE_true] at *
    exact le_trans h1 h2

theorem beats_dirLE {m : Bool} {a b : α} (h : beats m a b) : dirLE m a b := by
  cases m
  · rw [beats_false] at h
    exact dirLE_false.mpr h
  · rw [beats_true] at h
    exact dirLE_true.mpr (le_of_lt h)

theorem not_beats_dirLE {m : Bool} {a b : α} (h : ¬beats m a b) : dirLE m b a := by
  cases m
  · rw [beats_false] at h
    exact dirLE_false.mpr (le_of_lt (lt_of_not_le h))
  · rw [beats_true] at h
    exact dirLE_true.mpr (le_of_not_lt h)

/-- The selection test `m == Less(c, best)` of the source decides `beats`. -/
theorem beq_less_iff {h : List α} {m : Bool} {i j : Nat} :
    (m == less h i j) = true ↔ beats m (val h i) (val h j) := by
  unfold less beats
  cases m <;> simp

theorem length_swapSeq (h : List α) (i j : Nat) : (swapSeq h i j).length = h.length := by
  simp [swapSeq]

theorem val_set_same {l : List α} {i : Nat} {a : α} (hi : i < l.length) :
    val (l.set i a) i = a := by
  unfold val
  rw [List.getD_eq_getElem?_getD, List.getElem?_set_self hi]
  rfl

theorem val_set_ne {l : List α} {i j : Nat} {a : α} (hne : i ≠ j) :
    val (l.set i a) j = val l j := by
  unfold val
  rw [List.getD_eq_getElem?_getD, List.getElem?_set_ne hne, ← List.getD_eq_getElem?_getD]

theorem val_swapSeq_left {h : List α} {i j : Nat} (hi : i < h.length) :
    val (swapSeq h i j) i = val h j := by
  unfold swapSeq
  by_cases hij : i = j
  · subst hij
    exact val_set_same (by simpa using hi)
  · rw [val_set_ne (Ne.symm hij)]
    exact val_set_same hi

theorem val_swapSeq_right {h : List α} {i j : Nat} (hj : j < h.length) :
    val (swapSeq h i j) j = val h i := by
  unfold swapSeq
  exact val_set_same (by simpa using hj)

theorem val_swapSeq_other {h : List α} {i j x : Nat} (hxi : x ≠ i) (hxj : x ≠ j) :
    val (swapSeq h i j) x = val h x := by
  unfold swapSeq
  rw [val_set_ne (Ne.symm hxj), val_set_ne (Ne.symm hxi)]

theorem val_eq_getElem {h : List α} {i : Nat} (hi : i < h.length) : val h i = h[i] :=
  List.getD_eq_getElem h default hi

/-- Swapping two in-range positions permutes the sequence. -/
theorem swapSeq_perm {h : List α} {i j : Nat} (hi : i < h.length) (hj : j < h.length) :
    (swapSeq h i j).Perm h := by
  rw [List.perm_iff_count]
  intro b
  unfold swapSeq
  have hj2 : j < (h.set i (val h j)).length := by simpa using hj
  rw [List.count_set _ _ _ _ hj2, List.count_set _ _ _ _ hi]
  have hvi : val h i = h[i] := val_eq_getElem hi
  have hvj : val h j = h[j] := val_eq_getElem hj
  have hbi : (h[i] == b) = true → 1 ≤ h.count b := by
    intro hb
    have : h[i] = b := by simpa using hb
    exact List.count_pos_iff.mpr (this ▸ List.getElem_mem hi)
  have hbj : (h[j] == b) = true → 1 ≤ h.count b := by
    intro hb
    have : h[j] = b := by simpa using hb
    exact List.count_pos_iff.mpr (this ▸ List.getElem_mem hj)
  by_cases hij : i = j
  · subst hij
    simp only [List.getElem_set_self, hvi, hvj]
    split_ifs with hA
    · have := hbi hA
      omega
    · omega
  · rw [List.getElem_set_ne hij]
    simp only [hvi, hvj]
    split_ifs with hA hB
    · have := hbi hA
      omega
    · have := hbi hA
      omega
    · omega
    · omega

theorem desc_trans {i j k : Nat} (hij : Descendant i j) (hjk : Descendant j k) :
    Descendant i k := by
  induction hij with
  | refl => exact hjk
  | left i _ ih => exact Descendant.left i (ih hjk)
  | right i _ ih => exact Descendant.right i (ih hjk)

theorem desc_le {i k : Nat} (h : Descendant i k) : i ≤ k := by
  induction h with
  | refl i => exact le_refl i
  | left i _ ih => omega
  | right i _ ih => omega

theorem desc_child_left (i : Nat) : Descendant i (2 * i + 1) :=
  Descendant.left i (Descendant.refl _)

theorem desc_child_right (i : Nat) : Descendant i (2 * i + 2) :=
  Descendant.right i (Descendant.refl _)

theorem parent_left (i : Nat) : parent (2 * i + 1) = i := by unfold parent; omega

theorem parent_right (i : Nat) : parent (2 * i + 2) = i := by unfold parent; omega

theorem desc_parent_step {d : Nat} (hd : 1 ≤ d) : Descendant (parent d) d := by
  rcases parent_cases hd with hp | hp
  · nth_rewrite 2 [hp]
    exact desc_child_left _
  · nth_rewrite 2 [hp]
    exact desc_child_right _

theorem desc_zero (i : Nat) : Descendant 0 i := by
  induction i using Nat.strong_induction_on with
  | _ i ih =>
    rcases Nat.eq_zero_or_pos i with h | h
    · subst h; exact Descendant.refl 0
    · have h1 : Descendant 0 (parent i) := ih (parent i) (by unfold parent; omega)
      exact desc_trans h1 (desc_parent_step h)

theorem desc_bound {i k : Nat} (h : Descendant i k) (hne : i ≠ k) : 2 * i + 1 ≤ k := by
  cases h with
  | refl => exact absurd rfl hne
  | left i h => exact desc_le h
  | right i h => have := desc_le h; omega

theorem desc_peel {i k : Nat} (h : Descendant i k) (hne : i ≠ k) :
    Descendant i (parent k) := by
  induction h with
  | refl i => exact absurd rfl hne
  | left i h ih =>
    rename_i k
    by_cases he : 2 * i + 1 = k
    · subst he
      rw [parent_left]
      exact Descendant.refl i
    · exact Descendant.left i (ih he)
  | right i h ih =>
    rename_i k
    by_cases he : 2 * i + 2 = k
    · subst he
      rw [parent_right]
      exact Descendant.refl i
    · exact Descendant.right i (ih he)

theorem desc_total {i j k : Nat} (hik : Descendant i k) (hjk : Descendant j k) :
    Descendant i j ∨ Descendant j i := by
  revert hik hjk
  induction k using Nat.strong_induction_on with
  | _ k ih =>
    intro hik hjk
    by_cases hi : i = k
    · subst hi; exact Or.inr hjk
    · by_cases hj : j = k
      · subst hj; exact Or.inl hik
      · have hk : 1 ≤ k := by
          have := desc_le hik
          rcases Nat.eq_zero_or_pos k with h0 | h0
          · omega
          · exact h0
        exact ih (parent k) (by unfold parent; omega) (desc_peel hik hi) (desc_peel hjk hj)

/-- Two subtrees are disjoint unless one root is a descendant of the other. -/
theorem desc_disjoint {i j y : Nat} (hij : i < j) (hnd : ¬Descendant i j)
    (hjy : Descendant j y) : ¬Descendant i y := by
  intro hiy
  rcases desc_total hiy hjy with h | h
  · exact hnd h
  · exact absurd (desc_le h) (by omega)

/-- Fuel irrelevance of `descGo`. -/
theorem descGo_eq {i f f' d : Nat} (hf : d ≤ f) (hf' : d ≤ f') :
    descGo i f d = descGo i f' d := by
  induction f generalizing f' d with
  | zero =>
    have hd : d = 0 := by omega
    subst hd
    cases f' with
    | zero => rfl
    | succ f'' => simp [descGo]
  | succ f ihf =>
    cases f' with
    | zero =>
      have hd : d = 0 := by omega
      subst hd
      simp [descGo]
    | succ f'' =>
      simp only [descGo]
      by_cases hdi : d ≤ i
      · simp [hdi]
      · simp only [if_neg hdi]
        exact @ihf f'' (parent d) (by unfold parent; omega) (by unfold parent; omega)

/-- Recursion equation for `isDesc`. -/
theorem isDesc_unfold (i d : Nat) :
    isDesc i d = if d ≤ i then i == d else isDesc i (parent d) := by
  unfold isDesc
  cases d with
  | zero => simp [descGo]
  | succ f =>
    simp only [descGo]
    by_cases hdi : f + 1 ≤ i
    · simp [hdi]
    · simp only [if_neg hdi]
      exact @descGo_eq i f (parent (f + 1)) (parent (f + 1)) (by unfold parent; omega)
        (le_refl _)

theorem isDesc_refl (i : Nat) : isDesc i i = true := by
  rw [isDesc_unfold]
  simp

theorem isDesc_parent_absorb {x k : Nat} (h : isDesc x k = true) :
    isDesc (parent x) k = true := by
  revert h
  induction k using Nat.strong_induction_on with
  | _ k ih =>
    intro h
    rw [isDesc_unfold] at h
    by_cases hkx : k ≤ x
    · rw [if_pos hkx] at h
      have hxk : x = k := by simpa using h
      subst hxk
      rw [isDesc_unfold]
      by_cases hk0 : x ≤ parent x
      · have hx0 : x = 0 := by unfold parent at hk0; omega
        subst hx0
        decide
      · rw [if_neg hk0]
        exact isDesc_refl _
    · rw [if_neg hkx] at h
      have h1 := ih (parent k) (by unfold parent; omega) h
      rw [isDesc_unfold]
      have hpx : parent x ≤ x := by unfold parent; omega
      rw [if_neg (by omega)]
      exact h1

/-- `isDesc` decides `Descendant`. -/
theorem isDesc_iff {i d : Nat} : isDesc i d = true ↔ Descendant i d := by
  constructor
  · revert i
    induction d using Nat.strong_induction_on with
    | _ d ih =>
      intro i h
      rw [isDesc_unfold] at h
      by_cases hdi : d ≤ i
      · rw [if_pos hdi] at h
        have : i = d := by simpa using h
        subst this
        exact Descendant.refl i
      · rw [if_neg hdi] at h
        have h1 : Descendant i (parent d) := ih (parent d) (by unfold parent; omega) h
        exact desc_trans h1 (desc_parent_step (by omega))
  · intro h
    induction h with
    | refl j => exact isDesc_refl j
    | left j _ ih =>
      have := isDesc_parent_absorb ih
      rwa [parent_left] at this
    | right j _ ih =>
      have := isDesc_parent_absorb ih
      rwa [parent_right] at this

theorem inv_iff_invB {h : List α} {n : Nat} : Inv h n ↔ invB h n = true := by
  unfold Inv invB
  simp only [List.all_eq_true, List.mem_range, Bool.or_eq_true, Bool.not_eq_true']
  constructor
  · intro hI x hx y hy
    by_cases hd : isDesc x y = true
    · exact Or.inr (cmpOK_iff.mp (hI x hx y hy (isDesc_iff.mp hd)))
    · exact Or.inl (by simpa using hd)
  · intro hB x hx y hy hdesc
    rcases hB x hx y hy with hfalse | hOK
    · exact absurd (isDesc_iff.mpr hdesc) (by simp [hfalse])
    · exact cmpOK_iff.mpr hOK

theorem inv_iff_subHeap_zero {h : List α} {n : Nat} : Inv h n ↔ SubHeap h n 0 := by
  unfold Inv SubHeap
  constructor
  · intro hI x y _ hxy hy
    exact hI x (lt_of_le_of_lt (desc_le hxy) hy) y hy hxy
  · intro hS x _ y hy hxy
    exact hS x y (desc_zero x) hxy hy

theorem cmpOK_eq_dirLE {h : List α} {x y : Nat} :
    cmpOK h x y ↔ dirLE (minLevelD x) (val h x) (val h y) := Iff.rfl

/-- Cases of a reflexive descendant: the root itself or a descendant of one
of the two children. -/
theorem desc_elim {r x : Nat} (hd : Descendant r x) :
    x = r ∨ Descendant (2 * r + 1) x ∨ Descendant (2 * r + 2) x := by
  cases hd with
  | refl => exact Or.inl rfl
  | left _ hx => exact Or.inr (Or.inl hx)
  | right _ hx => exact Or.inr (Or.inr hx)

theorem subHeap_sub {h : List α} {n r x : Nat} (hs : SubHeap h n r) (hx : Descendant r x) :
    SubHeap h n x := fun a b ha hab hb => hs a b (desc_trans hx ha) hab hb

theorem subHeap_congr {h1 h2 : List α} {n r : Nat}
    (hval : ∀ j, Descendant r j → j < n → val h1 j = val h2 j)
    (hs : SubHeap h1 n r) : SubHeap h2 n r := by
  intro x y hx hxy hy
  have hxd : Descendant r y := desc_trans hx hxy
  have hxn : x < n := lt_of_le_of_lt (desc_le hxy) hy
  have e1 := hval x hx hxn
  have e2 := hval y hxd hy
  have := hs x y hx hxy hy
  rw [cmpOK_eq_dirLE] at this ⊢
  rw [← e1, ← e2]
  exact this

/-- Assemble a subtree heap from the root condition and the two child
subtrees. -/
theorem subHeap_build {h : List α} {n r : Nat}
    (hroot : ∀ d, Descendant r d → d < n → dirLE (minLevelD r) (val h r) (val h d))
    (hl : SubHeap h n (2 * r + 1)) (hr : SubHeap h n (2 * r + 2)) :
    SubHeap h n r := by
  intro x y hx hxy hy
  rcases desc_elim hx with rfl | hx1 | hx2
  · rw [cmpOK_eq_dirLE]
    exact hroot y hxy hy
  · exact hl x y hx1 hxy hy
  · exact hr x y hx2 hxy hy

theorem mem_posList {n r j : Nat} : j ∈ posList n r ↔ j < n ∧ Descendant r j := by
  unfold posList
  rw [List.mem_filter, List.mem_range]
  constructor
  · rintro ⟨h1, h2⟩
    exact ⟨h1, isDesc_iff.mp h2⟩
  · rintro ⟨h1, h2⟩
    exact ⟨h1, isDesc_iff.mpr h2⟩

theorem posList_nodup (n r : Nat) : (posList n r).Nodup :=
  (List.nodup_range n).filter _

theorem subVals_eq_map (h : List α) (n r : Nat) :
    subVals h n r = Multiset.map (val h) ((posList n r : List Nat) : Multiset Nat) := by
  unfold subVals
  simp

theorem subVals_congr {h1 h2 : List α} {n r : Nat}
    (hval : ∀ j, Descendant r j → j < n → val h1 j = val h2 j) :
    subVals h1 n r = subVals h2 n r := by
  unfold subVals
  congr 1
  apply List.map_congr_left
  intro j hj
  obtain ⟨h1, h2⟩ := mem_posList.mp hj
  exact hval j h2 h1

/-- Swapping two distinct positions of the subtree leaves its value multiset
unchanged. -/
theorem subVals_swap {h : List α} {n r i j : Nat} (hij : i ≠ j)
    (hi : i < n) (hdi : Descendant r i) (hj : j < n) (hdj : Descendant r j)
    (hin : i < h.length) (hjn : j < h.length) :
    subVals (swapSeq h i j) n r = subVals h n r := by
  rw [subVals_eq_map, subVals_eq_map]
  have hmi : i ∈ (posList n r : Multiset Nat) := by
    simpa using mem_posList.mpr ⟨hi, hdi⟩
  obtain ⟨t, ht⟩ := Multiset.exists_cons_of_mem hmi
  have hnd : ((posList n r : List Nat) : Multiset Nat).Nodup := by
    simpa using posList_nodup n r
  have hmj : j ∈ t := by
    have : j ∈ (posList n r : Multiset Nat) := by
      simpa using mem_posList.mpr ⟨hj, hdj⟩
    rw [ht] at this
    rcases Multiset.mem_cons.mp this with rfl | hjt
    · exact absurd rfl hij.symm
    · exact hjt
  obtain ⟨u, hu⟩ := Multiset.exists_cons_of_mem hmj
  rw [ht, hu]
  have hndu : i ∉ u ∧ j ∉ u := by
    rw [ht, hu] at hnd
    rw [Multiset.nodup_cons, Multiset.nodup_cons] at hnd
    constructor
    · intro hiu
      exact hnd.1 (Multiset.mem_cons.mpr (Or.inr hiu))
    · intro hju
      exact hnd.2.1 hju
  simp only [Multiset.map_cons]
  rw [val_swapSeq_left hin, val_swapSeq_right hjn]
  rw [Multiset.cons_swap]
  congr 1
  congr 1
  apply Multiset.map_congr rfl
  intro x hxu
  exact val_swapSeq_other (fun hxe => hndu.1 (hxe ▸ hxu)) (fun hxe => hndu.2 (hxe ▸ hxu))

/-- Splitting the value multiset of a subtree at an inner subtree. -/
theorem subVals_decomp (h : List α) {n r g : Nat} (hg : Descendant r g) :
    subVals h n r =
      subVals h n g +
        ((((posList n r).filter (fun j => !isDesc g j)).map (val h) : List α) : Multiset α) := by
  rw [subVals_eq_map, subVals_eq_map]
  have hsplit : ((posList n r : List Nat) : Multiset Nat) =
      ((posList n r).filter (fun j => isDesc g j) : List Nat) +
        ((posList n r).filter (fun j => !isDesc g j) : List Nat) := by
    rw [Multiset.coe_add]
    exact (Multiset.coe_eq_coe.mpr (List.filter_append_perm _ _)).symm
  have hinner : (posList n r).filter (fun j => isDesc g j) = posList n g := by
    unfold posList
    rw [List.filter_filter]
    apply List.filter_congr
    intro x _
    rcases Decidable.em (isDesc g x = true) with hgx | hgx
    · have : isDesc r x = true := isDesc_iff.mpr (desc_trans hg (isDesc_iff.mp hgx))
      simp [hgx, this]
    · simp at hgx
      simp [hgx]
  rw [hsplit, hinner]
  rw [Multiset.map_add]
  congr 1

/-- Transfer a directed bound over a subtree along equality of its value
multiset. -/
theorem dirLE_subVals_transfer {h1 h2 : List α} {n r : Nat} {m : Bool} {B : α}
    (heq : subVals h1 n r = subVals h2 n r)
    (hall : ∀ d, Descendant r d → d < n → dirLE m B (val h2 d)) :
    ∀ d, Descendant r d → d < n → dirLE m B (val h1 d) := by
  intro d hd hdn
  have hmem : val h1 d ∈ subVals h1 n r := by
    rw [subVals_eq_map]
    exact Multiset.mem_map_of_mem _ (by simpa using mem_posList.mpr ⟨hdn, hd⟩)
  rw [heq, subVals_eq_map] at hmem
  obtain ⟨j, hj, hval⟩ := Multiset.mem_map.mp hmem
  obtain ⟨hjn, hjd⟩ := mem_posList.mp (by simpa using hj)
  rw [← hval]
  exact hall j hjd hjn

/-- The folded selection returns either the initial best or a scanned
candidate. -/
theorem foldl_pickStep_result (h : List α) (m : Bool) (best : Nat × Relation)
    (cs : List (Nat × Relation)) :
    List.foldl (pickStep h m) best cs = best ∨ List.foldl (pickStep h m) best cs ∈ cs := by
  induction cs generalizing best with
  | nil => exact Or.inl rfl
  | cons c rest ih =>
    simp only [List.foldl_cons]
    rcases ih (pickStep h m best c) with hr | hr
    · rw [hr]
      unfold pickStep
      split
      · exact Or.inr (List.mem_cons_self c rest)
      · exact Or.inl rfl
    · exact Or.inr (List.mem_cons_of_mem _ hr)

/-- The folded selection is extreme (in direction `m`) among the initial best
and all scanned candidates. -/
theorem foldl_pickStep_le (h : List α) (m : Bool) (best : Nat × Relation)
    (cs : List (Nat × Relation)) :
    dirLE m (val h (List.foldl (pickStep h m) best cs).1) (val h best.1) ∧
      ∀ c ∈ cs, dirLE m (val h (List.foldl (pickStep h m) best cs).1) (val h c.1) := by
  induction cs generalizing best with
  | nil => exact ⟨dirLE_refl m _, by simp⟩
  | cons c rest ih =>
    simp only [List.foldl_cons]
    obtain ⟨ih1, ih2⟩ := ih (pickStep h m best c)
    by_cases hsel : (m == less h c.1 best.1) = true
    · have hcb : dirLE m (val h c.1) (val h best.1) := beats_dirLE (beq_less_iff.mp hsel)
      have hstep : pickStep h m best c = c := by unfold pickStep; rw [if_pos hsel]
      rw [hstep] at ih1 ih2 ⊢
      refine ⟨dirLE_trans ih1 hcb, ?_⟩
      intro d hd
      rcases List.mem_cons.mp hd with rfl | hd
      · exact ih1
      · exact ih2 d hd
    · have hcb : dirLE m (val h best.1) (val h c.1) :=
        not_beats_dirLE (fun hb => hsel (beq_less_iff.mpr hb))
      have hstep : pickStep h m best c = best := by unfold pickStep; rw [if_neg hsel]
      rw [hstep] at ih1 ih2 ⊢
      refine ⟨ih1, ?_⟩
      intro d hd
      rcases List.mem_cons.mp hd with rfl | hd
      · exact dirLE_trans ih1 hcb
      · exact ih2 d hd

/-- On a candidate list with ascending indices (as in `down`), the source's
break-on-out-of-range scan agrees with discarding every out-of-range candidate
and scanning all the rest. -/
theorem pickSmallest_eq_pickF {h : List α} {m : Bool} {n : Nat} (best : Nat × Relation)
    (cands : List (Nat × Relation))
    (hasc : cands.Pairwise (fun a b => a.1 ≤ b.1)) :
    pickSmallest h m n best cands = pickF h m n best cands := by
  induction cands generalizing best with
  | nil => rfl
  | cons c rest ih =>
    rw [List.pairwise_cons] at hasc
    rw [pickSmallest]
    by_cases hc : c.1 ≥ n
    · rw [if_pos hc]
      unfold pickF
      have hfil : (c :: rest).filter (fun x => decide (x.1 < n)) = [] := by
        rw [List.filter_eq_nil_iff]
        intro a ha
        simp only [decide_eq_true_eq, not_lt]
        rcases List.mem_cons.mp ha with rfl | ha
        · exact hc
        · exact le_trans hc (hasc.1 a ha)
      rw [hfil]
      rfl
    · rw [if_neg hc]
      have hfil : (c :: rest).filter (fun x => decide (x.1 < n)) =
          c :: rest.filter (fun x => decide (x.1 < n)) := by
        rw [List.filter_cons_of_pos (by simpa using by omega)]
      by_cases hsel : (m == less h c.1 best.1) = true
      · rw [if_pos hsel, ih c hasc.2]
        unfold pickF
        rw [hfil]
        simp only [List.foldl_cons]
        have hstep : pickStep h m best c = c := by unfold pickStep; rw [if_pos hsel]
        rw [hstep]
      · rw [if_neg hsel, ih best hasc.2]
        unfold pickF
        rw [hfil]
        simp only [List.foldl_cons]
        have hstep : pickStep h m best c = best := by unfold pickStep; rw [if_neg hsel]
        rw [hstep]

theorem dirLE_flip {m : Bool} {a b : α} (h : dirLE m a b) : dirLE (!m) b a := by
  cases m
  · exact dirLE_true.mpr (dirLE_false.mp h)
  · exact dirLE_false.mpr (dirLE_true.mp h)

/-- A subtree that lies entirely outside the logical range is vacuously a
heap. -/
theorem subHeap_of_le {h : List α} {n c : Nat} (hc : n ≤ c) : SubHeap h n c := by
  intro x y hcx hxy hy
  have h1 := desc_le hcx
  have h2 := desc_le hxy
  exact absurd hy (by omega)

theorem not_desc_of_lt {i j : Nat} (hij : j < i) : ¬Descendant i j :=
  fun hd => absurd (desc_le hd) (by omega)

/-- Distinct children of one parent have disjoint subtrees. -/
theorem siblings_not_desc {q c c' : Nat} (hc : c = 2 * q + 1 ∨ c = 2 * q + 2)
    (hc' : c' = 2 * q + 1 ∨ c' = 2 * q + 2) (hne : c ≠ c') : ¬Descendant c c' := by
  intro hd
  have h1 := desc_bound hd hne
  rcases hc with rfl | rfl <;> rcases hc' with rfl | rfl <;> omega

theorem minLevelD_grand {r c g : Nat} (hc : c = 2 * r + 1 ∨ c = 2 * r + 2)
    (hg : g = 2 * c + 1 ∨ g = 2 * c + 2) : minLevelD g = minLevelD r := by
  rcases hc with rfl | rfl <;> rcases hg with rfl | rfl <;>
    simp [minLevelD_left, minLevelD_right]

theorem progeny_pairwise (cur : Nat) :
    (progeny cur).Pairwise (fun a b => a.1 ≤ b.1) := by
  unfold progeny
  simp [List.pairwise_cons]
  omega

/-- Membership shape of the progeny list. -/
theorem mem_progeny {cur : Nat} {s : Nat} {rel : Relation}
    (hmem : (s, rel) ∈ progeny cur) :
    (rel = Relation.child ∧ (s = 2 * cur + 1 ∨ s = 2 * cur + 2)) ∨
      (rel = Relation.grandchild ∧
        (s = 2 * (2 * cur + 1) + 1 ∨ s = 2 * (2 * cur + 1) + 2 ∨
          s = 2 * (2 * cur + 2) + 1 ∨ s = 2 * (2 * cur + 2) + 2)) := by
  unfold progeny at hmem
  simp only [List.mem_cons, List.not_mem_nil, or_false, Prod.mk.injEq] at hmem
  rcases hmem with ⟨h1, h2⟩ | ⟨h1, h2⟩ | ⟨h1, h2⟩ | ⟨h1, h2⟩ | ⟨h1, h2⟩ | ⟨h1, h2⟩ <;>
    subst h1 <;> subst h2 <;> simp

/-- Every progeny index is a (reflexive-transitive) descendant of `cur`. -/
theorem progeny_desc {cur : Nat} {c : Nat × Relation} (hmem : c ∈ progeny cur) :
    Descendant cur c.1 := by
  unfold progeny at hmem
  simp only [List.mem_cons, List.not_mem_nil, or_false] at hmem
  rcases hmem with rfl | rfl | rfl | rfl | rfl | rfl
  · exact desc_child_left cur
  · exact desc_child_right cur
  · exact desc_trans (desc_child_left cur) (desc_child_left _)
  · exact desc_trans (desc_child_left cur) (desc_child_right _)
  · exact desc_trans (desc_child_right cur) (desc_child_left _)
  · exact desc_trans (desc_child_right cur) (desc_child_right _)

/-- What the candidate scan of `down` guarantees: the result is `cur` itself
or an in-range progeny entry, and its value is extreme (in direction `m`)
among `cur` and every in-range progeny index. -/
theorem pick_facts {h : List α} {m : Bool} {n cur s : Nat} {rel : Relation}
    (hp : pickSmallest h m n (cur, Relation.self) (progeny cur) = (s, rel)) :
    ((s, rel) = (cur, Relation.self) ∨ ((s, rel) ∈ progeny cur ∧ s < n)) ∧
      dirLE m (val h s) (val h cur) ∧
      (∀ c, c ∈ progeny cur → c.1 < n → dirLE m (val h s) (val h c.1)) := by
  rw [pickSmallest_eq_pickF _ _ (progeny_pairwise cur)] at hp
  unfold pickF at hp
  refine ⟨?_, ?_, ?_⟩
  · rcases foldl_pickStep_result h m (cur, Relation.self)
        ((progeny cur).filter (fun c => decide (c.1 < n))) with hr | hr
    · rw [hp] at hr
      exact Or.inl hr
    · rw [hp] at hr
      have hf := List.mem_filter.mp hr
      exact Or.inr ⟨hf.1, by simpa using hf.2⟩
  · have hle := (foldl_pickStep_le h m (cur, Relation.self)
      ((progeny cur).filter (fun c => decide (c.1 < n)))).1
    rw [hp] at hle
    exact hle
  · intro c hc hcn
    have hle := (foldl_pickStep_le h m (cur, Relation.self)
      ((progeny cur).filter (fun c => decide (c.1 < n)))).2
    rw [hp] at hle
    exact hle c (List.mem_filter.mpr ⟨hc, by simpa using hcn⟩)

/-- A value that is extreme among a node and its in-range progeny is extreme
over the node's whole in-range subtree, provided the two child subtrees are
heaps. -/
theorem best_le_subtree {h : List α} {n cur : Nat} {m : Bool} {B : α}
    (hm : m = minLevelD cur)
    (hsub : ∀ c, (c = 2 * cur + 1 ∨ c = 2 * cur + 2) → c < n → SubHeap h n c)
    (hB : dirLE m B (val h cur))
    (hcand : ∀ c, c ∈ progeny cur → c.1 < n → dirLE m B (val h c.1)) :
    ∀ d, Descendant cur d → d < n → dirLE m B (val h d) := by
  have key : ∀ c, (c = 2 * cur + 1 ∨ c = 2 * cur + 2) → ∀ d, Descendant c d → d < n →
      dirLE m B (val h d) := by
    intro c hc d hcd hdn
    have hchild : (c, Relation.child) ∈ progeny cur := by
      unfold progeny
      rcases hc with rfl | rfl
      · exact List.mem_cons_self _ _
      · exact List.mem_cons_of_mem _ (List.mem_cons_self _ _)
    rcases desc_elim hcd with rfl | hg1 | hg2
    · exact hcand (d, Relation.child) hchild hdn
    · have hgn : 2 * c + 1 < n := lt_of_le_of_lt (desc_le hg1) hdn
      have hgmem : ((2 * c + 1 : Nat), Relation.grandchild) ∈ progeny cur := by
        unfold progeny
        rcases hc with rfl | rfl <;> simp
      have hBg : dirLE m B (val h (2 * c + 1)) := hcand _ hgmem hgn
      have hsc : SubHeap h n c := hsub c hc (lt_of_le_of_lt (desc_le hcd) hdn)
      have hcmp := hsc (2 * c + 1) d (desc_child_left c) hg1 hdn
      rw [cmpOK_eq_dirLE] at hcmp
      have hpar : minLevelD (2 * c + 1) = m := by rw [hm]; exact minLevelD_grand hc (Or.inl rfl)
      rw [hpar] at hcmp
      exact dirLE_trans hBg hcmp
    · have hgn : 2 * c + 2 < n := lt_of_le_of_lt (desc_le hg2) hdn
      have hgmem : ((2 * c + 2 : Nat), Relation.grandchild) ∈ progeny cur := by
        unfold progeny
        rcases hc with rfl | rfl <;> simp
      have hBg : dirLE m B (val h (2 * c + 2)) := hcand _ hgmem hgn
      have hsc : SubHeap h n c := hsub c hc (lt_of_le_of_lt (desc_le hcd) hdn)
      have hcmp := hsc (2 * c + 2) d (desc_child_right c) hg2 hdn
      rw [cmpOK_eq_dirLE] at hcmp
      have hpar : minLevelD (2 * c + 2) = m := by rw [hm]; exact minLevelD_grand hc (Or.inr rfl)
      rw [hpar] at hcmp
      exact dirLE_trans hBg hcmp
  intro d hd hdn
  rcases desc_elim hd with rfl | hd1 | hd2
  · exact hB
  · exact key _ (Or.inl rfl) d hd1 hdn
  · exact key _ (Or.inr rfl) d hd2 hdn

/-- Main correctness of the `down` loop: started at a node whose two child
subtrees are heaps, it makes the whole subtree a heap, preserves the length,
changes no value outside the subtree, and permutes the subtree's values. -/
theorem downLoop_correct (h : List α) (cur : Nat) (m : Bool) (n : Nat) :
    n ≤ h.length → cur < n → m = minLevelD cur →
    (∀ c, (c = 2 * cur + 1 ∨ c = 2 * cur + 2) → c < n → SubHeap h n c) →
    SubHeap (downLoop h cur m n).1 n cur ∧
      (downLoop h cur m n).1.length = h.length ∧
      (∀ j, ¬Descendant cur j → val (downLoop h cur m n).1 j = val h j) ∧
      subVals (downLoop h cur m n).1 n cur = subVals h n cur ∧
      (∀ j, n ≤ j → val (downLoop h cur m n).1 j = val h j) := by
  induction h, cur, m, n using downLoop.induct with
  | case1 h cur m n s hp =>
    intro hn hcur hm hsub
    have heq : downLoop h cur m n = (h, cur) := by
      rw [downLoop.eq_def]
      split
      · rfl
      · rename_i s' hp2
        rw [hp] at hp2
        cases hp2
      · rename_i s' hp2
        rw [hp] at hp2
        cases hp2
    rw [heq]
    obtain ⟨hres, hle, hcand⟩ := pick_facts hp
    have hscur : s = cur := by
      rcases hres with he | ⟨hmem, _⟩
      · exact congrArg Prod.fst he
      · rcases mem_progeny hmem with ⟨hrel, _⟩ | ⟨hrel, _⟩ <;> cases hrel
    subst hscur
    refine ⟨?_, rfl, fun j _ => rfl, rfl, fun j _ => rfl⟩
    apply subHeap_build
    · rw [← hm]
      exact best_le_subtree hm hsub hle hcand
    · by_cases hc : 2 * s + 1 < n
      · exact hsub _ (Or.inl rfl) hc
      · exact subHeap_of_le (by omega)
    · by_cases hc : 2 * s + 2 < n
      · exact hsub _ (Or.inr rfl) hc
      · exact subHeap_of_le (by omega)
  | case2 h cur m n s hp =>
    intro hn hcur hm hsub
    have heq : downLoop h cur m n = (swapSeq h cur s, s) := by
      rw [downLoop.eq_def]
      split
      · rename_i s' hp2
        rw [hp] at hp2
        cases hp2
      · rename_i s' hp2
        rw [hp] at hp2
        injection hp2 with e1 e2
        subst e1
        rfl
      · rename_i s' hp2
        rw [hp] at hp2
        cases hp2
    rw [heq]
    obtain ⟨hres, hle, hcand⟩ := pick_facts hp
    have hmem : (s, Relation.child) ∈ progeny cur ∧ s < n := by
      rcases hres with he | h2
      · cases he
      · exact h2
    have hs2 : s = 2 * cur + 1 ∨ s = 2 * cur + 2 := by
      rcases mem_progeny hmem.1 with ⟨_, h2⟩ | ⟨hrel, _⟩
      · exact h2
      · cases hrel
    have hsn : s < n := hmem.2
    have hcurlen : cur < h.length := lt_of_lt_of_le hcur hn
    have hslen : s < h.length := lt_of_lt_of_le hsn hn
    have hcs : cur ≠ s := by omega
    have hdesc_s : Descendant cur s := by
      rcases hs2 with rfl | rfl
      · exact desc_child_left cur
      · exact desc_child_right cur
    have hv_cur : val (swapSeq h cur s) cur = val h s := val_swapSeq_left hcurlen
    have hv_s : val (swapSeq h cur s) s = val h cur := val_swapSeq_right hslen
    have hv_other : ∀ j, j ≠ cur → j ≠ s → val (swapSeq h cur s) j = val h j :=
      fun j a b => val_swapSeq_other a b
    have hball : ∀ d, Descendant cur d → d < n → dirLE m (val h s) (val h d) :=
      best_le_subtree hm hsub hle hcand
    have hms : minLevelD s = !m := by
      rw [hm]
      rcases hs2 with rfl | rfl
      · exact minLevelD_left cur
      · exact minLevelD_right cur
    refine ⟨?_, length_swapSeq h cur s, ?_, ?_, ?_⟩
    · -- the subtree is a heap again after the swap
      have hnew_s : SubHeap (swapSeq h cur s) n s := by
        apply subHeap_build
        · rw [hms]
          intro d hd hdn
          rw [hv_s]
          by_cases hds : d = s
          · subst hds
            rw [hv_s]
            exact dirLE_refl _ _
          · have hdcur : d ≠ cur := by
              have := desc_le hd
              omega
            rw [hv_other d hdcur hds]
            have hsx := hsub s hs2 hsn
            have hcmp := hsx s d (Descendant.refl s) hd hdn
            rw [cmpOK_eq_dirLE, hms] at hcmp
            exact dirLE_trans (dirLE_flip hle) hcmp
        · by_cases hc : 2 * s + 1 < n
          · apply subHeap_congr _ (subHeap_sub (hsub s hs2 hsn) (desc_child_left s))
            intro j hj hjn
            have := desc_le hj
            exact (hv_other j (by omega) (by omega)).symm
          · exact subHeap_of_le (by omega)
        · by_cases hc : 2 * s + 2 < n
          · apply subHeap_congr _ (subHeap_sub (hsub s hs2 hsn) (desc_child_right s))
            intro j hj hjn
            have := desc_le hj
            exact (hv_other j (by omega) (by omega)).symm
          · exact subHeap_of_le (by omega)
      have hnew_o : ∀ o, (o = 2 * cur + 1 ∨ o = 2 * cur + 2) → o ≠ s →
          o < n → SubHeap (swapSeq h cur s) n o := by
        intro o ho hos hon
        apply subHeap_congr _ (hsub o ho hon)
        intro j hj hjn
        have hjo := desc_le hj
        have hjs : j ≠ s := by
          intro he
          exact siblings_not_desc ho hs2 hos (he ▸ hj)
        exact (hv_other j (by omega) hjs).symm
      apply subHeap_build
      · rw [← hm]
        intro d hd hdn
        rw [hv_cur]
        by_cases hdc : d = cur
        · subst hdc
          rw [hv_cur]
          exact dirLE_refl m _
        · by_cases hds : d = s
          · subst hds
            rw [hv_s]
            exact hle
          · rw [hv_other d hdc hds]
            exact hball d hd hdn
      · by_cases hc : 2 * cur + 1 < n
        · rcases hs2 with hseq | hseq
          · rw [← hseq]; exact hnew_s
          · exact hnew_o _ (Or.inl rfl) (by omega) hc
        · exact subHeap_of_le (by omega)
      · by_cases hc : 2 * cur + 2 < n
        · rcases hs2 with hseq | hseq
          · exact hnew_o _ (Or.inr rfl) (by omega) hc
          · rw [← hseq]; exact hnew_s
        · exact subHeap_of_le (by omega)
    · intro j hj
      have hjc : j ≠ cur := fun he => hj (he ▸ Descendant.refl cur)
      have hjs : j ≠ s := fun he => hj (he ▸ hdesc_s)
      exact hv_other j hjc hjs
    · exact subVals_swap hcs hcur (Descendant.refl cur) hsn hdesc_s hcurlen hslen
    · intro j hjn
      exact hv_other j (by omega) (by omega)
  | case3 h cur m n s hp h1def h2def ih =>
    intro hn hcur hm hsub
    obtain ⟨hres, hle, hcand⟩ := pick_facts hp
    have hmem : (s, Relation.grandchild) ∈ progeny cur ∧ s < n := by
      rcases hres with he | h2
      · cases he
      · exact h2
    have hs4 : s = 2 * (2 * cur + 1) + 1 ∨ s = 2 * (2 * cur + 1) + 2 ∨
        s = 2 * (2 * cur + 2) + 1 ∨ s = 2 * (2 * cur + 2) + 2 := by
      rcases mem_progeny hmem.1 with ⟨hrel, _⟩ | ⟨_, h4⟩
      · cases hrel
      · exact h4
    have hsn : s < n := hmem.2
    have hpc : parent s = 2 * cur + 1 ∨ parent s = 2 * cur + 2 := by
      rcases hs4 with rfl | rfl | rfl | rfl
      · exact Or.inl (parent_left _)
      · exact Or.inl (parent_right _)
      · exact Or.inr (parent_left _)
      · exact Or.inr (parent_right _)
    have hcur_lt_p : cur < parent s := by rcases hpc with he | he <;> omega
    have hp_lt_s : parent s < s := by
      rcases hpc with he | he <;> rcases hs4 with rfl | rfl | rfl | rfl <;> omega
    have hpn : parent s < n := by omega
    have hcurlen : cur < h.length := by omega
    have hslen : s < h.length := by omega
    have hplen : parent s < h.length := by omega
    have hdesc_p : Descendant cur (parent s) := by
      rcases hpc with he | he <;> rw [he]
      · exact desc_child_left cur
      · exact desc_child_right cur
    have hdesc_s : Descendant cur s := progeny_desc hmem.1
    have hdesc_ps : Descendant (parent s) s := desc_parent_step (by omega)
    have hm_s : m = minLevelD s := by
      rw [hm]
      rcases hs4 with rfl | rfl | rfl | rfl <;>
        simp [minLevelD_left, minLevelD_right]
    have hmp : minLevelD (parent s) = !m := by
      rw [hm]
      rcases hpc with he | he <;> rw [he]
      · exact minLevelD_left cur
      · exact minLevelD_right cur
    have hball : ∀ d, Descendant cur d → d < n → dirLE m (val h s) (val h d) :=
      best_le_subtree hm hsub hle hcand
    have hVp_cand : dirLE m (val h s) (val h (parent s)) := by
      have hchild : ((parent s : Nat), Relation.child) ∈ progeny cur := by
        unfold progeny
        rcases hpc with he | he <;> rw [he]
        · exact List.mem_cons_self _ _
        · exact List.mem_cons_of_mem _ (List.mem_cons_self _ _)
      exact hcand _ hchild hpn
    -- the assembly, shared between the two parent-swap branches
    have key : ∀ (h2 : List α) (VS VP : α),
        (n ≤ h2.length → s < n → m = minLevelD s →
          (∀ c, (c = 2 * s + 1 ∨ c = 2 * s + 2) → c < n → SubHeap h2 n c) →
          SubHeap (downLoop h2 s m n).1 n s ∧
            (downLoop h2 s m n).1.length = h2.length ∧
            (∀ j, ¬Descendant s j → val (downLoop h2 s m n).1 j = val h2 j) ∧
            subVals (downLoop h2 s m n).1 n s = subVals h2 n s ∧
            (∀ j, n ≤ j → val (downLoop h2 s m n).1 j = val h2 j)) →
        val h2 cur = val h s → val h2 s = VS → val h2 (parent s) = VP →
        (∀ j, j ≠ cur → j ≠ s → j ≠ parent s → val h2 j = val h j) →
        h2.length = h.length →
        subVals h2 n cur = subVals h n cur →
        dirLE m (val h s) VS → dirLE m (val h s) VP →
        dirLE (!m) VP (val h (parent s)) → dirLE (!m) VP VS →
        SubHeap (downLoop h2 s m n).1 n cur ∧
          (downLoop h2 s m n).1.length = h.length ∧
          (∀ j, ¬Descendant cur j → val (downLoop h2 s m n).1 j = val h j) ∧
          subVals (downLoop h2 s m n).1 n cur = subVals h n cur ∧
          (∀ j, n ≤ j → val (downLoop h2 s m n).1 j = val h j) := by
      intro h2 VS VP ihi hv2cur hv2s hv2p hv2other hlen2 hvals2 hVS hVP hVPp hVPs
      have hch : ∀ c, (c = 2 * s + 1 ∨ c = 2 * s + 2) → c < n → SubHeap h2 n c := by
        intro c hc hcn
        have hbase : SubHeap h n c := by
          apply subHeap_sub (hsub (parent s) hpc hpn)
          rcases hc with rfl | rfl
          · exact desc_trans hdesc_ps (desc_child_left s)
          · exact desc_trans hdesc_ps (desc_child_right s)
        apply subHeap_congr _ hbase
        intro j hj hjn
        have := desc_le hj
        exact (hv2other j (by omega) (by omega) (by omega)).symm
      obtain ⟨ihS, ihLen, ihFrame, ihVals, ihHigh⟩ := ihi (by rw [hlen2]; exact hn) hsn hm_s hch
      have hf_cur : val (downLoop h2 s m n).1 cur = val h s := by
        rw [ihFrame cur (not_desc_of_lt (by omega)), hv2cur]
      have hf_p : val (downLoop h2 s m n).1 (parent s) = VP := by
        rw [ihFrame (parent s) (not_desc_of_lt hp_lt_s), hv2p]
      have hball2 : ∀ d, Descendant cur d → d < n → dirLE m (val h s) (val h2 d) := by
        intro d hd hdn
        by_cases hdc : d = cur
        · subst hdc
          rw [hv2cur]
          exact dirLE_refl _ _
        · by_cases hds : d = s
          · subst hds
            rw [hv2s]
            exact hVS
          · by_cases hdp : d = parent s
            · subst hdp
              rw [hv2p]
              exact hVP
            · rw [hv2other d hdc hds hdp]
              exact hball d hd hdn
      have hball3 : ∀ d, Descendant cur d → d < n →
          dirLE m (val h s) (val (downLoop h2 s m n).1 d) := by
        intro d hd hdn
        by_cases hdesc : Descendant s d
        · exact dirLE_subVals_transfer ihVals
            (fun e he hen => hball2 e (desc_trans hdesc_s he) hen) d hdesc hdn
        · rw [ihFrame d hdesc]
          exact hball2 d hd hdn
      have hVP_old : ∀ d, Descendant (parent s) d → d < n → dirLE (!m) VP (val h d) := by
        intro d hd hdn
        have hsp : SubHeap h n (parent s) := hsub (parent s) hpc hpn
        have hcmp := hsp (parent s) d (Descendant.refl _) hd hdn
        rw [cmpOK_eq_dirLE, hmp] at hcmp
        exact dirLE_trans hVPp hcmp
      have hpball2 : ∀ d, Descendant (parent s) d → d < n → dirLE (!m) VP (val h2 d) := by
        intro d hd hdn
        by_cases hds : d = s
        · subst hds
          rw [hv2s]
          exact hVPs
        · by_cases hdp : d = parent s
          · subst hdp
            rw [hv2p]
            exact dirLE_refl _ _
          · have hdc : d ≠ cur := by
              have := desc_le hd
              omega
            rw [hv2other d hdc hds hdp]
            exact hVP_old d hd hdn
      have hpball3 : ∀ d, Descendant (parent s) d → d < n →
          dirLE (!m) VP (val (downLoop h2 s m n).1 d) := by
        intro d hd hdn
        by_cases hdesc : Descendant s d
        · exact dirLE_subVals_transfer ihVals
            (fun e he hen => hpball2 e (desc_trans hdesc_ps he) hen) d hdesc hdn
        · rw [ihFrame d hdesc]
          exact hpball2 d hd hdn
      have huntouched : ∀ r0, cur < r0 → r0 ≠ parent s →
          ¬Descendant r0 s → ¬Descendant s r0 → ¬Descendant r0 (parent s) →
          SubHeap h n r0 → SubHeap (downLoop h2 s m n).1 n r0 := by
        intro r0 hr0c hr0p hr0ns hns_r0 hr0np hbase
        apply subHeap_congr _ hbase
        intro j hj hjn
        have hjge := desc_le hj
        have hjne_s : j ≠ s := fun he => hr0ns (he ▸ hj)
        have hjne_p : j ≠ parent s := fun he => hr0np (he ▸ hj)
        have hjnd_s : ¬Descendant s j := by
          intro hsj
          rcases desc_total hj hsj with hx | hx
          · exact hr0ns hx
          · exact hns_r0 hx
        exact ((ihFrame j hjnd_s).trans (hv2other j (by omega) hjne_s hjne_p)).symm
      have hs_shape : s = 2 * parent s + 1 ∨ s = 2 * parent s + 2 := parent_cases (by omega)
      have hpgt : 2 * cur + 1 ≤ parent s := by rcases hpc with he | he <;> omega
      have hsub_p : SubHeap (downLoop h2 s m n).1 n (parent s) := by
        have hg2 : ∀ g2, (g2 = 2 * parent s + 1 ∨ g2 = 2 * parent s + 2) → g2 ≠ s →
            g2 < n → SubHeap (downLoop h2 s m n).1 n g2 := by
          intro g2 hg2c hg2s hg2n
          have hg2gt : parent s < g2 := by rcases hg2c with rfl | rfl <;> omega
          apply huntouched g2 (by omega) (by omega)
            (siblings_not_desc hg2c hs_shape hg2s)
            (siblings_not_desc hs_shape hg2c (Ne.symm hg2s))
            (not_desc_of_lt (by omega))
          apply subHeap_sub (hsub (parent s) hpc hpn)
          rcases hg2c with rfl | rfl
          · exact desc_child_left _
          · exact desc_child_right _
        apply subHeap_build
        · rw [hmp]
          intro d hd hdn
          rw [hf_p]
          exact hpball3 d hd hdn
        · by_cases hc : 2 * parent s + 1 < n
          · rcases hs_shape with hseq | hseq
            · rw [← hseq]
              exact ihS
            · exact hg2 _ (Or.inl rfl) (by omega) hc
          · exact subHeap_of_le (by omega)
        · by_cases hc : 2 * parent s + 2 < n
          · rcases hs_shape with hseq | hseq
            · exact hg2 _ (Or.inr rfl) (by omega) hc
            · rw [← hseq]
              exact ihS
          · exact subHeap_of_le (by omega)
      refine ⟨?_, ihLen.trans hlen2, ?_, ?_, ?_⟩
      · apply subHeap_build
        · rw [← hm]
          intro d hd hdn
          rw [hf_cur]
          exact hball3 d hd hdn
        · by_cases hc : 2 * cur + 1 < n
          · rcases hpc with hpe | hpe
            · rw [← hpe]
              exact hsub_p
            · have hocs : ¬Descendant (2 * cur + 1) s := by
                intro hd
                rcases desc_total hd hdesc_ps with hx | hx
                · exact siblings_not_desc (Or.inl rfl) (Or.inr hpe) (by omega) hx
                · exact siblings_not_desc (Or.inr hpe) (Or.inl rfl) (by omega) hx
              apply huntouched (2 * cur + 1) (by omega) (by omega) hocs
                (not_desc_of_lt (by omega))
                (siblings_not_desc (Or.inl rfl) (Or.inr hpe) (by omega))
                (hsub _ (Or.inl rfl) hc)
          · exact subHeap_of_le (by omega)
        · by_cases hc : 2 * cur + 2 < n
          · rcases hpc with hpe | hpe
            · have hocs : ¬Descendant (2 * cur + 2) s := by
                intro hd
                rcases desc_total hd hdesc_ps with hx | hx
                · exact siblings_not_desc (Or.inr rfl) (Or.inl hpe) (by omega) hx
                · exact siblings_not_desc (Or.inl hpe) (Or.inr rfl) (by omega) hx
              apply huntouched (2 * cur + 2) (by omega) (by omega) hocs
                (not_desc_of_lt (by omega))
                (siblings_not_desc (Or.inr rfl) (Or.inl hpe) (by omega))
                (hsub _ (Or.inr rfl) hc)
            · rw [← hpe]
              exact hsub_p
          · exact subHeap_of_le (by omega)
      · intro j hj
        have hjc : j ≠ cur := fun he => hj (he ▸ Descendant.refl cur)
        have hjs : j ≠ s := fun he => hj (he ▸ hdesc_s)
        have hjp : j ≠ parent s := fun he => hj (he ▸ hdesc_p)
        have hjnd : ¬Descendant s j := fun hd => hj (desc_trans hdesc_s hd)
        rw [ihFrame j hjnd]
        exact hv2other j hjc hjs hjp
      · have hsv : subVals (downLoop h2 s m n).1 n cur = subVals h2 n cur := by
          rw [subVals_decomp (downLoop h2 s m n).1 hdesc_s, subVals_decomp h2 hdesc_s,
            ihVals]
          congr 2
          apply List.map_congr_left
          intro j hj
          obtain ⟨hj1, hj2⟩ := List.mem_filter.mp hj
          apply ihFrame
          intro hd
          rw [isDesc_iff.mpr hd] at hj2
          exact absurd hj2 (by simp)
        exact hsv.trans hvals2
      · intro j hjn
        rw [ihHigh j hjn]
        exact hv2other j (by omega) (by omega) (by omega)
    -- rewrite the goal to the recursive call and dispatch the two branches
    have heq : downLoop h cur m n = downLoop h2def s m n := by
      rw [downLoop.eq_def]
      split
      · rename_i s' hp2
        rw [hp] at hp2
        cases hp2
      · rename_i s' hp2
        rw [hp] at hp2
        cases hp2
      · rename_i s' hp2
        rw [hp] at hp2
        injection hp2 with e1 e2
        subst e1
        rfl
    rw [heq]
    have hh2 : h2def = if (m == less (swapSeq h cur s) (parent s) s) = true
        then swapSeq (swapSeq h cur s) s (parent s) else swapSeq h cur s := rfl
    have hlen1 : (swapSeq h cur s).length = h.length := length_swapSeq h cur s
    have hv1_cur : val (swapSeq h cur s) cur = val h s := val_swapSeq_left hcurlen
    have hv1_s : val (swapSeq h cur s) s = val h cur := val_swapSeq_right hslen
    have hv1_p : val (swapSeq h cur s) (parent s) = val h (parent s) :=
      val_swapSeq_other (by omega) (by omega)
    have hvals1 : subVals (swapSeq h cur s) n cur = subVals h n cur :=
      subVals_swap (by omega) hcur (Descendant.refl cur) hsn hdesc_s hcurlen hslen
    by_cases hps : (m == less (swapSeq h cur s) (parent s) s) = true
    · rw [if_pos hps] at hh2
      rw [hh2] at ih ⊢
      have hb : beats m (val h (parent s)) (val h cur) := by
        have := beq_less_iff.mp hps
        rwa [hv1_p, hv1_s] at this
      have hplen1 : parent s < (swapSeq h cur s).length := by omega
      have hslen1 : s < (swapSeq h cur s).length := by omega
      apply key _ (val h (parent s)) (val h cur) ih
      · rw [val_swapSeq_other (by omega) (by omega), hv1_cur]
      · rw [val_swapSeq_left hslen1, hv1_p]
      · rw [val_swapSeq_right hplen1, hv1_s]
      · intro j hjc hjs hjp
        rw [val_swapSeq_other hjs hjp, val_swapSeq_other hjc hjs]
      · rw [length_swapSeq, hlen1]
      · rw [subVals_swap (by omega) hsn hdesc_s hpn hdesc_p hslen1 hplen1, hvals1]
      · exact hVp_cand
      · exact hle
      · exact dirLE_flip (beats_dirLE hb)
      · exact dirLE_flip (beats_dirLE hb)
    · rw [if_neg hps] at hh2
      rw [hh2] at ih ⊢
      have hnb : ¬beats m (val h (parent s)) (val h cur) := by
        intro hb
        apply hps
        rw [beq_less_iff, hv1_p, hv1_s]
        exact hb
      apply key _ (val h cur) (val h (parent s)) ih
      · exact hv1_cur
      · exact hv1_s
      · exact hv1_p
      · intro j hjc hjs _
        exact val_swapSeq_other hjc hjs
      · exact hlen1
      · exact hvals1
      · exact hle
      · exact hVp_cand
      · exact dirLE_refl _ _
      · exact dirLE_flip (not_beats_dirLE hnb)

/-- Below `2^64` the leading-zeros parity trick of the source agrees with the
depth-parity specification. -/
theorem isMinLevel_eq_minLevelD {i : Nat} (hi : i + 1 < 2 ^ 64) :
    isMinLevel i = minLevelD i := by
  unfold isMinLevel minLevelD depth
  have h64 : bitLen (i + 1) ≤ 64 := bitLen_le_iff.mpr hi
  have h1 : 1 ≤ bitLen (i + 1) := bitLen_pos (by omega)
  rcases Nat.mod_two_eq_zero_or_one (bitLen (i + 1)) with h | h
  · have ha : (64 - bitLen (i + 1)) % 2 = 0 := by omega
    have hb : (bitLen (i + 1) - 1) % 2 = 1 := by omega
    simp [ha, hb]
  · have ha : (64 - bitLen (i + 1)) % 2 = 1 := by omega
    have hb : (bitLen (i + 1) - 1) % 2 = 0 := by omega
    simp [ha, hb]

theorem inv_subHeap {h : List α} {n r : Nat} (hI : Inv h n) : SubHeap h n r :=
  fun x y _ hxy hy => hI x (lt_of_le_of_lt (desc_le hxy) hy) y hy hxy

theorem subHeap_mono_n {h : List α} {n n' r : Nat} (hle : n' ≤ n) (hs : SubHeap h n r) :
    SubHeap h n' r := fun x y hx hxy hy => hs x y hx hxy (lt_of_lt_of_le hy hle)

/-- A node whose children are out of range satisfies the subtree property
vacuously. -/
theorem subHeap_leaf {h : List α} {n j : Nat} (hj : n ≤ 2 * j + 1) : SubHeap h n j := by
  intro x y hx hxy hy
  rcases desc_elim hx with rfl | h1 | h2
  · rcases desc_elim hxy with rfl | h1 | h2
    · exact cmpOK_refl h _
    · have := desc_le h1
      exact absurd hy (by omega)
    · have := desc_le h2
      exact absurd hy (by omega)
  · have h3 := desc_le h1
    have h4 := desc_le hxy
    exact absurd hy (by omega)
  · have h3 := desc_le h2
    have h4 := desc_le hxy
    exact absurd hy (by omega)

theorem inv_congr {h1 h2 : List α} {n : Nat} (hval : ∀ j, j < n → val h1 j = val h2 j)
    (hI : Inv h1 n) : Inv h2 n := by
  intro x hx y hy hxy
  have := hI x hx y hy hxy
  rw [cmpOK_eq_dirLE] at this ⊢
  rw [← hval x hx, ← hval y hy]
  exact this

/-- Under the invariant the root value is a lower bound for every in-range
value. -/
theorem inv_root_min {h : List α} {n : Nat} (hI : Inv h n) :
    ∀ j, j < n → val h 0 ≤ val h j := by
  intro j hj
  rcases Nat.eq_zero_or_pos j with rfl | hj0
  · exact le_refl _
  · have hn0 : 0 < n := by omega
    have := hI 0 hn0 j hj (desc_zero j)
    rw [cmpOK_eq_dirLE, minLevelD_zero, dirLE_true] at this
    exact this

theorem val_ne_of_nodup {h : List α} {i j : Nat} (hnd : h.Nodup)
    (hi : i < h.length) (hj : j < h.length) (hij : i ≠ j) : val h i ≠ val h j := by
  rw [val_eq_getElem hi, val_eq_getElem hj]
  intro he
  exact hij ((hnd.getElem_inj_iff).mp he)

/-- Every index past the first two children descends from index 1 or 2. -/
theorem desc_one_or_two {j : Nat} (hj : 3 ≤ j) : Descendant 1 j ∨ Descendant 2 j := by
  induction j using Nat.strong_induction_on with
  | _ j ih =>
    have hp1 : 1 ≤ parent j := by unfold parent; omega
    have hpj : Descendant (parent j) j := desc_parent_step (by omega)
    by_cases hp3 : 3 ≤ parent j
    · rcases ih (parent j) (by unfold parent at *; omega) hp3 with hx | hx
      · exact Or.inl (desc_trans hx hpj)
      · exact Or.inr (desc_trans hx hpj)
    · have : parent j = 1 ∨ parent j = 2 := by omega
      rcases this with he | he
      · exact Or.inl (he ▸ hpj)
      · exact Or.inr (he ▸ hpj)

/-- Wrapper of `downLoop_correct` for `down`, translating `isMinLevel` to the
depth-parity form below `2^64`. -/
theorem down_correct {h : List α} {i0 n : Nat}
    (hn : n ≤ h.length) (hi : i0 < n) (hbound : n < 2 ^ 64)
    (hsub : ∀ c, (c = 2 * i0 + 1 ∨ c = 2 * i0 + 2) → c < n → SubHeap h n c) :
    SubHeap (down h i0 n).1 n i0 ∧
      (down h i0 n).1.length = h.length ∧
      (∀ j, ¬Descendant i0 j → val (down h i0 n).1 j = val h j) ∧
      subVals (down h i0 n).1 n i0 = subVals h n i0 ∧
      (∀ j, n ≤ j → val (down h i0 n).1 j = val h j) := by
  have hm : isMinLevel i0 = minLevelD i0 := isMinLevel_eq_minLevelD (by omega)
  exact downLoop_correct h i0 (isMinLevel i0) n hn hi hm hsub

/-- If no in-range candidate beats the initial best, the scan returns it. -/
theorem pickSmallest_id {h : List α} {m : Bool} {n : Nat} {best : Nat × Relation}
    {cands : List (Nat × Relation)}
    (hno : ∀ c ∈ cands, c.1 < n → ¬beats m (val h c.1) (val h best.1)) :
    pickSmallest h m n best cands = best := by
  induction cands with
  | nil => rfl
  | cons c rest ih =>
    rw [pickSmallest]
    by_cases hc : c.1 ≥ n
    · rw [if_pos hc]
    · rw [if_neg hc]
      have hnb : ¬(m == less h c.1 best.1) = true := fun hb =>
        hno c (List.mem_cons_self c rest) (by omega) (beq_less_iff.mp hb)
      rw [if_neg hnb]
      exact ih fun d hd => hno d (List.mem_cons_of_mem _ hd)

/-- When the scan selects the node itself the loop stops at once. -/
theorem downLoop_of_self {h : List α} {cur s : Nat} {m : Bool} {n : Nat}
    (hp : pickSmallest h m n (cur, Relation.self) (progeny cur) = (s, Relation.self)) :
    downLoop h cur m n = (h, cur) := by
  rw [downLoop.eq_def]
  split
  · rfl
  · rename_i s' hp2
    rw [hp] at hp2
    cases hp2
  · rename_i s' hp2
    rw [hp] at hp2
    cases hp2

/-- A node whose first child is already out of range is not moved by the
loop. -/
theorem progeny_lb {cur : Nat} {c : Nat × Relation} (hc : c ∈ progeny cur) :
    2 * cur + 1 ≤ c.1 := by
  unfold progeny at hc
  simp only [List.mem_cons, List.not_mem_nil, or_false] at hc
  rcases hc with rfl | rfl | rfl | rfl | rfl | rfl <;> dsimp only <;> omega

theorem downLoop_stop {h : List α} {cur : Nat} {m : Bool} {n : Nat}
    (hk : n ≤ 2 * cur + 1) : downLoop h cur m n = (h, cur) := by
  apply downLoop_of_self
  apply pickSmallest_id
  intro c hc hcn
  have hge := progeny_lb hc
  exact absurd hcn (by omega)

/-- Step equation of the loop when the scan selects a child. -/
theorem downLoop_of_child {h : List α} {cur s : Nat} {m : Bool} {n : Nat}
    (hp : pickSmallest h m n (cur, Relation.self) (progeny cur) = (s, Relation.child)) :
    downLoop h cur m n = (swapSeq h cur s, s) := by
  rw [downLoop.eq_def]
  split
  · rename_i s' hp2
    rw [hp] at hp2
    cases hp2
  · rename_i s' hp2
    rw [hp] at hp2
    injection hp2 with e1 e2
    subst e1
    rfl
  · rename_i s' hp2
    rw [hp] at hp2
    cases hp2

/-- Step equation of the loop when the scan selects a grandchild. -/
theorem downLoop_of_grand {h : List α} {cur s : Nat} {m : Bool} {n : Nat}
    (hp : pickSmallest h m n (cur, Relation.self) (progeny cur) = (s, Relation.grandchild)) :
    downLoop h cur m n =
      downLoop (if (m == less (swapSeq h cur s) (parent s) s) = true
        then swapSeq (swapSeq h cur s) s (parent s) else swapSeq h cur s) s m n := by
  rw [downLoop.eq_def]
  split
  · rename_i s' hp2
    rw [hp] at hp2
    cases hp2
  · rename_i s' hp2
    rw [hp] at hp2
    cases hp2
  · rename_i s' hp2
    rw [hp] at hp2
    injection hp2 with e1 e2
    subst e1
    rfl

/-- The loop only swaps in-range positions, so it permutes the sequence. -/
theorem downLoop_perm (h : List α) (cur : Nat) (m : Bool) (n : Nat) :
    n ≤ h.length → (downLoop h cur m n).1.Perm h := by
  induction h, cur, m, n using downLoop.induct with
  | case1 h cur m n s hp =>
    intro hn
    rw [downLoop_of_self hp]
  | case2 h cur m n s hp =>
    intro hn
    rw [downLoop_of_child hp]
    obtain ⟨hres, -, -⟩ := pick_facts hp
    have hmem : (s, Relation.child) ∈ progeny cur ∧ s < n := by
      rcases hres with he | h2
      · cases he
      · exact h2
    have hge := progeny_lb hmem.1
    exact swapSeq_perm (by have := hmem.2; omega) (by have := hmem.2; omega)
  | case3 h cur m n s hp h1def h2def ih =>
    intro hn
    rw [downLoop_of_grand hp]
    obtain ⟨hres, -, -⟩ := pick_facts hp
    have hmem : (s, Relation.grandchild) ∈ progeny cur ∧ s < n := by
      rcases hres with he | h2
      · cases he
      · exact h2
    have hge := progeny_lb hmem.1
    have hsn : s < n := hmem.2
    have hcn : cur < n := by omega
    have hpn : parent s < n := by unfold parent; omega
    have hh2 : h2def = if (m == less (swapSeq h cur s) (parent s) s) = true
        then swapSeq (swapSeq h cur s) s (parent s) else swapSeq h cur s := rfl
    have hperm1 : (swapSeq h cur s).Perm h := swapSeq_perm (by omega) (by omega)
    by_cases hps : (m == less (swapSeq h cur s) (parent s) s) = true
    · rw [if_pos hps]
      rw [if_pos hps] at hh2
      rw [hh2] at ih
      have hperm2 : (swapSeq (swapSeq h cur s) s (parent s)).Perm (swapSeq h cur s) :=
        swapSeq_perm (by rw [length_swapSeq]; omega) (by rw [length_swapSeq]; omega)
      have hlen2 : (swapSeq (swapSeq h cur s) s (parent s)).length = h.length := by
        rw [length_swapSeq, length_swapSeq]
      exact ((ih (by omega)).trans hperm2).trans hperm1
    · rw [if_neg hps]
      rw [if_neg hps] at hh2
      rw [hh2] at ih
      exact (ih (by rw [length_swapSeq]; omega)).trans hperm1

theorem down_perm {h : List α} {i0 n : Nat} (hn : n ≤ h.length) :
    (down h i0 n).1.Perm h := downLoop_perm h i0 (isMinLevel i0) n hn

theorem down_length {h : List α} {i0 n : Nat} (hn : n ≤ h.length) :
    (down h i0 n).1.length = h.length := (down_perm hn).length_eq

/-- The grandparent loop of `up` permutes the sequence. -/
theorem upLoop_perm (cur : Nat) : ∀ (h : List α) (m : Bool), cur < h.length →
    (upLoop h cur m).Perm h := by
  induction cur using Nat.strong_induction_on with
  | _ cur ih =>
    intro h m hcur
    rw [upLoop.eq_def]
    split
    · rename_i hgp
      have hgp2 : 2 < cur := by simpa [hasGrandparent] using hgp
      have hgpl : grandparent cur < cur := by unfold grandparent parent; omega
      split
      · have hv : (swapSeq h cur (grandparent cur)).length = h.length := length_swapSeq h _ _
        exact (ih (grandparent cur) hgpl (swapSeq h cur (grandparent cur)) m
          (by omega)).trans (swapSeq_perm hcur (by omega))
      · exact List.Perm.refl h
    · exact List.Perm.refl h

/-- `up` permutes the sequence. -/
theorem up_perm {h : List α} {cur : Nat} (hcur : cur < h.length) : (up h cur).Perm h := by
  unfold up
  by_cases hc : (hasParent cur && (isMinLevel cur == less h (parent cur) cur)) = true
  · rw [if_pos hc]
    have hpar : 0 < cur := by
      have h2 := hc
      rw [Bool.and_eq_true] at h2
      simpa [hasParent] using h2.1
    have hpl : parent cur < cur := by unfold parent; omega
    exact (upLoop_perm (parent cur) _ _ (by rw [length_swapSeq]; omega)).trans
      (swapSeq_perm hcur (by omega))
  · rw [if_neg hc]
    exact upLoop_perm cur h _ hcur

theorem up_length {h : List α} {cur : Nat} (hcur : cur < h.length) :
    (up h cur).length = h.length := (up_perm hcur).length_eq

/-- The `Init` loop permutes the sequence. -/
theorem initGo_perm (n : Nat) : ∀ (k : Nat) (h : List α), n ≤ h.length →
    (initGo h n k).Perm h := by
  intro k
  induction k with
  | zero => intro h _; exact List.Perm.refl h
  | succ k ih =>
    intro h hn
    have hdp : (down h k n).1.Perm h := down_perm hn
    exact (ih (down h k n).1 (by rw [hdp.length_eq]; exact hn)).trans hdp

theorem Init_perm (h : List α) : (Init h).Perm h :=
  initGo_perm h.length (h.length / 2) h (le_refl _)

theorem Init_length (h : List α) : (Init h).length = h.length := (Init_perm h).length_eq

/-- `Fix` permutes the sequence. -/
theorem Fix_perm {h : List α} {i : Nat} (hi : i < h.length) : (Fix h i).Perm h := by
  unfold Fix
  show (if (!(down h i h.length).2) = true then up (down h i h.length).1 i
      else (down h i h.length).1).Perm h
  split
  · exact (up_perm (by rw [down_length (le_refl _)]; exact hi)).trans (down_perm (le_refl _))
  · exact down_perm (le_refl _)

theorem Fix_length {h : List α} {i : Nat} (hi : i < h.length) :
    (Fix h i).length = h.length := (Fix_perm hi).length_eq

/-- Bottom-up construction: if every subtree rooted at an index `≥ k` is a
heap, running the `Init` loop from `k` makes every subtree a heap. -/
theorem initGo_inv {n : Nat} (hbound : n < 2 ^ 64) :
    ∀ (k : Nat) (h : List α), n ≤ h.length → (∀ j, k ≤ j → SubHeap h n j) →
      ∀ j, SubHeap (initGo h n k) n j := by
  intro k
  induction k with
  | zero =>
    intro h hn hall j
    exact hall j (Nat.zero_le j)
  | succ k ih =>
    intro h hn hall
    show ∀ j, SubHeap (initGo (down h k n).1 n k) n j
    by_cases hkn : k < n
    · obtain ⟨hS, hL, hF, hV, hH⟩ := down_correct hn hkn hbound
        (fun c hc hcn => hall c (by omega) )
      apply ih (down h k n).1 (by omega)
      intro j hj
      by_cases hjk : j = k
      · subst hjk
        exact hS
      · by_cases hdesc : Descendant k j
        · exact subHeap_sub hS hdesc
        · apply subHeap_congr _ (hall j (by omega))
          intro x hx hxn
          have hnx : ¬Descendant k x := desc_disjoint (by omega) hdesc hx
          exact (hF x hnx).symm
    · have hdid : (down h k n).1 = h := by
        show (downLoop h k (isMinLevel k) n).1 = h
        rw [downLoop_stop (by omega)]
      rw [hdid]
      apply ih h hn
      intro j hj
      by_cases hjk : j = k
      · subst hjk
        exact subHeap_of_le (by omega)
      · exact hall j (by omega)

/-- `Init` establishes the min-max heap invariant on the full sequence. -/
theorem Init_inv {h : List α} (hbound : h.length < 2 ^ 64) : Inv (Init h) h.length := by
  rw [inv_iff_subHeap_zero]
  exact initGo_inv hbound (h.length / 2) h (le_refl _)
    (fun j hj => subHeap_leaf (by omega)) 0

theorem val_dropLast {l : List α} {j : Nat} (hj : j < l.length - 1) :
    val l.dropLast j = val l j := by
  unfold val
  rw [List.getD_eq_getElem?_getD, List.getD_eq_getElem?_getD, List.getElem?_dropLast,
    if_pos hj]

/-- Full specification of `Pop` on a heap: the result satisfies the invariant
over `n - 1`, is one shorter, returns the root value, and the heap is a
permutation of the returned value consed onto the remainder. -/
theorem Pop_spec {h : List α} {n : Nat} (hn : n = h.length) (h1n : 1 ≤ n)
    (hbound : n < 2 ^ 64) (hI : Inv h n) :
    Inv (Pop h).1 (n - 1) ∧ (Pop h).1.length = n - 1 ∧ (Pop h).2 = val h 0 ∧
      h.Perm ((Pop h).2 :: (Pop h).1) := by
  have h0len : 0 < h.length := by omega
  have hn1len : h.length - 1 < h.length := by omega
  have hlen1 : (swapSeq h 0 (h.length - 1)).length = h.length := length_swapSeq h _ _
  rcases eq_or_lt_of_le h1n with he1 | hge2
  · -- a single element
    have hL1 : h.length = 1 := by omega
    have hd : (down (swapSeq h 0 (h.length - 1)) 0 (h.length - 1)).1 =
        swapSeq h 0 (h.length - 1) := by
      show (downLoop _ 0 (isMinLevel 0) _).1 = _
      rw [downLoop_stop (by omega)]
    obtain ⟨a, ha⟩ := List.length_eq_one.mp hL1
    have hv0 : val h 0 = a := by rw [ha]; rfl
    have hp2 : (Pop h).2 = val h 0 := by
      show val (down (swapSeq h 0 (h.length - 1)) 0 (h.length - 1)).1
          ((down (swapSeq h 0 (h.length - 1)) 0 (h.length - 1)).1.length - 1) = val h 0
      rw [hd, hlen1, hL1]
      exact val_swapSeq_left (by omega)
    have hp1 : (Pop h).1 = (swapSeq h 0 (h.length - 1)).dropLast := by
      show (down (swapSeq h 0 (h.length - 1)) 0 (h.length - 1)).1.dropLast = _
      rw [hd]
    have hp1len : (Pop h).1.length = 0 := by
      rw [hp1, List.length_dropLast, hlen1, hL1]
    have hp1nil : (Pop h).1 = [] := List.length_eq_zero.mp hp1len
    refine ⟨?_, ?_, hp2, ?_⟩
    · intro x hx
      exact absurd hx (by omega)
    · omega
    · rw [hp2, hp1nil, hv0, ha]
  · -- at least two elements
    have hpre : 0 < n - 1 := by omega
    have hnl : n - 1 = h.length - 1 := by omega
    have hsub2 : ∀ c, (c = 2 * 0 + 1 ∨ c = 2 * 0 + 2) → c < n - 1 →
        SubHeap (swapSeq h 0 (h.length - 1)) (n - 1) c := by
      intro c hc hcn
      apply subHeap_congr _ (subHeap_mono_n (by omega) (inv_subHeap hI))
      intro x hx hxn
      have hxc := desc_le hx
      exact (val_swapSeq_other (by omega) (by omega)).symm
    obtain ⟨hS, hL, hF, hV, hH⟩ := down_correct (by omega) hpre (by omega) hsub2
    have h2len : (down (swapSeq h 0 (h.length - 1)) 0 (n - 1)).1.length = h.length := by
      rw [hL, hlen1]
    have hInv2 : Inv (down (swapSeq h 0 (h.length - 1)) 0 (n - 1)).1 (n - 1) :=
      inv_iff_subHeap_zero.mpr hS
    have hvlast : val (down (swapSeq h 0 (h.length - 1)) 0 (n - 1)).1 (h.length - 1) =
        val h 0 := by
      rw [hH (h.length - 1) (by omega)]
      exact val_swapSeq_right hn1len
    have hperm2 : (down (swapSeq h 0 (h.length - 1)) 0 (n - 1)).1.Perm h :=
      (down_perm (by omega)).trans (swapSeq_perm h0len hn1len)
    have hstruct1 : (Pop h).1 = (down (swapSeq h 0 (h.length - 1)) 0 (n - 1)).1.dropLast := by
      show (down (swapSeq h 0 (h.length - 1)) 0 (h.length - 1)).1.dropLast = _
      rw [hnl]
    have hstruct2 : (Pop h).2 =
        val (down (swapSeq h 0 (h.length - 1)) 0 (n - 1)).1 (h.length - 1) := by
      show val (down (swapSeq h 0 (h.length - 1)) 0 (h.length - 1)).1
          ((down (swapSeq h 0 (h.length - 1)) 0 (h.length - 1)).1.length - 1) = _
      rw [hnl, down_length (by omega), hlen1]
    refine ⟨?_, ?_, ?_, ?_⟩
    · rw [hstruct1]
      apply inv_congr _ hInv2
      intro j hj
      exact (val_dropLast (by omega)).symm
    · rw [hstruct1, List.length_dropLast, h2len]
      omega
    · rw [hstruct2, hvlast]
    · have hne : (down (swapSeq h 0 (h.length - 1)) 0 (n - 1)).1 ≠ [] := by
        intro he
        rw [he] at h2len
        simp at h2len
        omega
      have hsplit := List.dropLast_append_getLast hne
      have hgl : (down (swapSeq h 0 (h.length - 1)) 0 (n - 1)).1.getLast hne = (Pop h).2 := by
        rw [List.getLast_eq_getElem, hstruct2]
        rw [← val_eq_getElem (by omega)]
        rw [h2len]
      have hp3 : (down (swapSeq h 0 (h.length - 1)) 0 (n - 1)).1.Perm
          ((down (swapSeq h 0 (h.length - 1)) 0 (n - 1)).1.getLast hne ::
            (down (swapSeq h 0 (h.length - 1)) 0 (n - 1)).1.dropLast) := by
        conv_lhs => rw [← hsplit]
        exact List.perm_append_singleton _ _
      rw [hstruct1, ← hgl]
      exact hperm2.symm.trans hp3

/-- Selection sort by `Pop`: on a heap, `k = n` successive pops list the
values in non-decreasing order and permute the heap. -/
theorem popN_correct : ∀ (k : Nat) (h : List α), k = h.length → k < 2 ^ 64 → Inv h k →
    List.Sorted (· ≤ ·) (popN h k) ∧ (popN h k).Perm h := by
  intro k
  induction k with
  | zero =>
    intro h hk _ _
    refine ⟨List.sorted_nil, ?_⟩
    have hnil : h = [] := List.length_eq_zero.mp hk.symm
    rw [hnil]
    exact List.Perm.refl _
  | succ k ih =>
    intro h hk hb hI
    obtain ⟨hInv2, hlen2, hval2, hperm2⟩ := Pop_spec hk (by omega) hb hI
    have hrec := ih (Pop h).1 (by omega) (by omega) hInv2
    show List.Sorted (· ≤ ·) ((Pop h).2 :: popN (Pop h).1 k) ∧
      ((Pop h).2 :: popN (Pop h).1 k).Perm h
    constructor
    · rw [List.sorted_cons]
      refine ⟨?_, hrec.1⟩
      intro b hbm
      have hbmem : b ∈ (Pop h).1 := (hrec.2.mem_iff).mp hbm
      have hbh : b ∈ h := hperm2.mem_iff.mpr (List.mem_cons_of_mem _ hbmem)
      obtain ⟨j, hjlt, hje⟩ := List.mem_iff_getElem.mp hbh
      rw [hval2, ← hje, ← val_eq_getElem hjlt]
      exact inv_root_min hI j (by omega)
    · exact ((hrec.2.cons (Pop h).2).trans hperm2.symm)

/-- Under the invariant, if all values are distinct, the candidate scan of
`down` keeps the node itself and `down` reports no movement. -/
theorem down_noop {h : List α} {n i : Nat} (hn : n ≤ h.length) (hbound : n < 2 ^ 64)
    (hi : i < n) (hnd : h.Nodup) (hI : Inv h n) : down h i n = (h, false) := by
  have hm : isMinLevel i = minLevelD i := isMinLevel_eq_minLevelD (by omega)
  have hpick : pickSmallest h (isMinLevel i) n (i, Relation.self) (progeny i) =
      (i, Relation.self) := by
    apply pickSmallest_id
    intro c hc hcn
    have hcge := progeny_lb hc
    have hdesc : Descendant i c.1 := progeny_desc hc
    have hcmp := hI i hi c.1 hcn hdesc
    rw [cmpOK_eq_dirLE] at hcmp
    have hne : val h c.1 ≠ val h i := val_ne_of_nodup hnd (by omega) (by omega) (by omega)
    rw [hm]
    intro hb
    cases hml : minLevelD i
    · rw [hml] at hb hcmp
      rw [beats_false] at hb
      rw [dirLE_false] at hcmp
      exact hne (le_antisymm hcmp hb)
    · rw [hml] at hb hcmp
      rw [beats_true] at hb
      rw [dirLE_true] at hcmp
      exact absurd hb (not_lt.mpr hcmp)
  show ((downLoop h i (isMinLevel i) n).1,
    decide ((downLoop h i (isMinLevel i) n).2 > i)) = (h, false)
  rw [downLoop_of_self hpick]
  simp

/-- Under the invariant, if all values are distinct, `up` does not move
anything. -/
theorem up_noop {h : List α} {n i : Nat} (hn : n ≤ h.length) (hbound : n < 2 ^ 64)
    (hi : i < n) (hnd : h.Nodup) (hI : Inv h n) : up h i = h := by
  have hm : isMinLevel i = minLevelD i := isMinLevel_eq_minLevelD (by omega)
  have hloop : upLoop h i (isMinLevel i) = h := by
    rw [upLoop.eq_def]
    split
    · rename_i hgp
      have hgi : 2 < i := by simpa [hasGrandparent] using hgp
      have hp1 : 1 ≤ parent i := by unfold parent; omega
      have hgplt : grandparent i < i := by unfold grandparent parent; omega
      have hgdesc : Descendant (grandparent i) i :=
        desc_trans (desc_parent_step hp1) (desc_parent_step (by omega))
      have hgm : minLevelD (grandparent i) = minLevelD i := by
        show minLevelD (parent (parent i)) = minLevelD i
        rw [minLevelD_parent hp1, minLevelD_parent (by omega : 1 ≤ i), Bool.not_not]
      have hcmp := hI (grandparent i) (by omega) i hi hgdesc
      rw [cmpOK_eq_dirLE, hgm] at hcmp
      have hne : val h i ≠ val h (grandparent i) :=
        val_ne_of_nodup hnd (by omega) (by omega) (by omega)
      have hgcond : ¬(isMinLevel i == less h i (grandparent i)) = true := by
        rw [hm]
        intro hb
        have hb2 := beq_less_iff.mp hb
        cases hml : minLevelD i
        · rw [hml] at hb2 hcmp
          rw [beats_false] at hb2
          rw [dirLE_false] at hcmp
          exact hne (le_antisymm hcmp hb2)
        · rw [hml] at hb2 hcmp
          rw [beats_true] at hb2
          rw [dirLE_true] at hcmp
          exact absurd hb2 (not_lt.mpr hcmp)
      rw [if_neg hgcond]
    · rfl
  have hbr : ¬(hasParent i && (isMinLevel i == less h (parent i) i)) = true := by
    by_cases hi0 : i = 0
    · subst hi0
      simp [hasParent]
    · have h1i : 1 ≤ i := by omega
      have hpi : parent i < i := by unfold parent; omega
      have hcmp := hI (parent i) (by omega) i hi (desc_parent_step h1i)
      rw [cmpOK_eq_dirLE, minLevelD_parent h1i] at hcmp
      have hne : val h (parent i) ≠ val h i :=
        val_ne_of_nodup hnd (by omega) (by omega) (by omega)
      intro hand
      rw [Bool.and_eq_true] at hand
      have hb2 := beq_less_iff.mp hand.2
      rw [hm] at hb2
      cases hml : minLevelD i
      · rw [hml] at hb2
        rw [hml] at hcmp
        simp only [Bool.not_false, dirLE_true] at hcmp
        rw [beats_false] at hb2
        exact hne (le_antisymm hcmp hb2)
      · rw [hml] at hb2
        rw [hml] at hcmp
        simp only [Bool.not_true, dirLE_false] at hcmp
        rw [beats_true] at hb2
        exact absurd hb2 (not_lt.mpr hcmp)
  show (if (hasParent i && (isMinLevel i == less h (parent i) i)) = true
      then upLoop (swapSeq h i (parent i)) (parent i) (!isMinLevel i)
      else upLoop h i (isMinLevel i)) = h
  rw [if_neg hbr]
  exact hloop

/-- Under the invariant, if all values are distinct, `Fix` performs no swaps:
`down` reports no movement and the sequence is returned unchanged. -/
theorem Fix_noop {h : List α} {i : Nat} (hbound : h.length < 2 ^ 64) (hi : i < h.length)
    (hnd : h.Nodup) (hI : Inv h h.length) :
    down h i h.length = (h, false) ∧ Fix h i = h := by
  have hd := down_noop (le_refl _) hbound hi hnd hI
  refine ⟨hd, ?_⟩
  show (if (!(down h i h.length).2) = true then up (down h i h.length).1 i
      else (down h i h.length).1) = h
  rw [hd]
  show (if (!false) = true then up h i else h) = h
  rw [if_pos (by simp)]
  exact up_noop (le_refl _) hbound hi hnd hI

/-- The bit length of a positive number is its floored base-2 logarithm
plus one. -/
theorem bitLen_eq_log2 {x : Nat} (hx : 1 ≤ x) : bitLen x = Nat.log2 x + 1 := by
  have h1 : bitLen x ≤ Nat.log2 x + 1 := bitLen_le_iff.mpr Nat.lt_log2_self
  have h2 : ¬bitLen x ≤ Nat.log2 x := fun hc =>
    absurd (bitLen_le_iff.mp hc) (not_lt.mpr (Nat.log2_self_le (by omega)))
  omega

/-- Concrete run of the candidate scan for the first `Remove` trace: at the
min-level node 3 of the swapped sequence the left child (index 7) is
selected. -/
theorem pick_eval_a : pickSmallest ([0,50,80,75,2,3,4,10,11,12,13,70,1] : List Nat) true 12
    (3, Relation.self) (progeny 3) = (7, Relation.child) := rfl

theorem downLoop_eval_a : downLoop ([0,50,80,75,2,3,4,10,11,12,13,70,1] : List Nat) 3 true 12 =
    ([0,50,80,10,2,3,4,75,11,12,13,70,1], 7) := by
  rw [downLoop_of_child pick_eval_a]
  rfl

theorem down_eval_a : down ([0,50,80,75,2,3,4,10,11,12,13,70,1] : List Nat) 3 12 =
    ([0,50,80,10,2,3,4,75,11,12,13,70,1], true) := by
  show ((downLoop ([0,50,80,75,2,3,4,10,11,12,13,70,1] : List Nat) 3 (isMinLevel 3) 12).1,
    decide ((downLoop ([0,50,80,75,2,3,4,10,11,12,13,70,1] : List Nat) 3 (isMinLevel 3) 12).2 > 3)) = _
  rw [show isMinLevel 3 = true from rfl, downLoop_eval_a]
  rfl

/-- Concrete run of `Remove` at index 3 of a 13-element heap: the last value
1 is swapped into node 3, `down` moves it below node 7 and reports movement,
so `up` is skipped and the value 75 stays under the max-level node 1. -/
theorem Remove_eval_a : Remove ([0,50,80,1,2,3,4,10,11,12,13,70,75] : List Nat) 3 =
    ([0,50,80,10,2,3,4,75,11,12,13,70], 1) := by
  unfold Remove
  norm_num
  rw [show swapSeq ([0,50,80,1,2,3,4,10,11,12,13,70,75] : List Nat) 3 12 =
    ([0,50,80,75,2,3,4,10,11,12,13,70,1] : List Nat) from rfl]
  rw [down_eval_a]
  rfl

/-- Concrete run of the candidate scan for the second `Remove` trace. -/
theorem pick_eval_b : pickSmallest ([0,40,90,77,2,3,4,10,11,12,13,60,1] : List Nat) true 12
    (3, Relation.self) (progeny 3) = (7, Relation.child) := rfl

theorem downLoop_eval_b : downLoop ([0,40,90,77,2,3,4,10,11,12,13,60,1] : List Nat) 3 true 12 =
    ([0,40,90,10,2,3,4,77,11,12,13,60,1], 7) := by
  rw [downLoop_of_child pick_eval_b]
  rfl

theorem down_eval_b : down ([0,40,90,77,2,3,4,10,11,12,13,60,1] : List Nat) 3 12 =
    ([0,40,90,10,2,3,4,77,11,12,13,60,1], true) := by
  show ((downLoop ([0,40,90,77,2,3,4,10,11,12,13,60,1] : List Nat) 3 (isMinLevel 3) 12).1,
    decide ((downLoop ([0,40,90,77,2,3,4,10,11,12,13,60,1] : List Nat) 3 (isMinLevel 3) 12).2 > 3)) = _
  rw [show isMinLevel 3 = true from rfl, downLoop_eval_b]
  rfl

/-- Concrete run of `Remove` at index 3 of a second 13-element heap; the
value 77 ends under the max-level node 1 holding 40. -/
theorem Remove_eval_b : Remove ([0,40,90,1,2,3,4,10,11,12,13,60,77] : List Nat) 3 =
    ([0,40,90,10,2,3,4,77,11,12,13,60], 1) := by
  unfold Remove
  norm_num
  rw [show swapSeq ([0,40,90,1,2,3,4,10,11,12,13,60,77] : List Nat) 3 12 =
    ([0,40,90,77,2,3,4,10,11,12,13,60,1] : List Nat) from rfl]
  rw [down_eval_b]
  rfl

/-- With tied values the scan at the max-level node 1 selects the equal-valued
child at index 3 (`onMinLevel == Less` holds on equality). -/
theorem pick_eval_tie : pickSmallest ([0,5,5,5] : List Nat) false 4
    (1, Relation.self) (progeny 1) = (3, Relation.child) := rfl

/-- On the tied heap `down` swaps the equal values at indices 1 and 3 (the
result flag `on > i0` is true, which in the source can only follow a `Swap`
call), leaving the value sequence unchanged. -/
theorem down_eval_tie : down ([0,5,5,5] : List Nat) 1 4 = ([0,5,5,5], true) := by
  show ((downLoop ([0,5,5,5] : List Nat) 1 (isMinLevel 1) 4).1,
    decide ((downLoop ([0,5,5,5] : List Nat) 1 (isMinLevel 1) 4).2 > 1)) = _
  rw [show isMinLevel 1 = false from rfl, downLoop_of_child pick_eval_tie]
  rfl

theorem Fix_eval_tie : Fix ([0,5,5,5] : List Nat) 1 = [0,5,5,5] := by
  show (if (!(down ([0,5,5,5] : List Nat) 1 (List.length [0,5,5,5])).2) = true
    then up (down ([0,5,5,5] : List Nat) 1 (List.length [0,5,5,5])).1 1
    else (down ([0,5,5,5] : List Nat) 1 (List.length [0,5,5,5])).1) = _
  rw [show (List.length ([0,5,5,5] : List Nat)) = 4 from rfl, down_eval_tie]
  rfl

/-- C1: the claim that the min-max heap invariant holds after every `Remove`
call on an invariant sequence is refuted by the code.  The 13-element heap
below satisfies the invariant at every index, yet `Remove` at index 3 moves
the former last value into the subtree of node 3, `down` swaps it one level
deeper and reports movement, `up` is therefore skipped, and the value 75 is
left at index 7 below the max-level node 1 holding 50: node 1 no longer
bounds its descendant 7 and the invariant fails on the remaining 12
elements. -/
theorem C1_invariant_after_ops_refuted :
    Inv ([0,50,80,1,2,3,4,10,11,12,13,70,75] : List Nat) 13 ∧
    Remove ([0,50,80,1,2,3,4,10,11,12,13,70,75] : List Nat) 3 =
      ([0,50,80,10,2,3,4,75,11,12,13,70], 1) ∧
    Descendant 1 7 ∧
    ¬cmpOK ((Remove ([0,50,80,1,2,3,4,10,11,12,13,70,75] : List Nat) 3).1) 1 7 ∧
    ¬Inv ((Remove ([0,50,80,1,2,3,4,10,11,12,13,70,75] : List Nat) 3).1)
      ((Remove ([0,50,80,1,2,3,4,10,11,12,13,70,75] : List Nat) 3).1).length := by
  refine ⟨inv_iff_invB.mpr (by decide), Remove_eval_a,
    Descendant.left 1 (Descendant.left 3 (Descendant.refl 7)), ?_, ?_⟩
  · rw [Remove_eval_a, cmpOK_iff]
    decide
  · rw [Remove_eval_a, inv_iff_invB]
    decide

/-- C2: building a heap over any sequence with `Init` and popping all
elements yields the values in non-decreasing order, as a permutation of the
original sequence; by uniqueness of sorted permutations the output is exactly
the sorted form of the original multiset. -/
theorem C2_sort_property {h : List α} (hbound : h.length < 2 ^ 64) :
    List.Sorted (· ≤ ·) (popN (Init h) h.length) ∧
    (popN (Init h) h.length).Perm h ∧
    ∀ l : List α, List.Sorted (· ≤ ·) l → l.Perm h → popN (Init h) h.length = l := by
  have hI : Inv (Init h) h.length := Init_inv hbound
  have hr := popN_correct h.length (Init h) (Init_length h).symm hbound hI
  refine ⟨hr.1, hr.2.trans (Init_perm h), ?_⟩
  intro l hls hlp
  exact List.eq_of_perm_of_sorted ((hr.2.trans (Init_perm h)).trans hlp.symm) hr.1 hls

theorem C2_sort_property_witness :
    List.Sorted (· ≤ ·) (popN (Init ([3,1,2] : List Nat)) ([3,1,2] : List Nat).length) ∧
    (popN (Init ([3,1,2] : List Nat)) ([3,1,2] : List Nat).length).Perm [3,1,2] :=
  ⟨(C2_sort_property (by decide)).1, (C2_sort_property (by decide)).2.1⟩

/-- C3: on an invariant heap of length `n ≥ 1`, `Pop` swaps index 0 with
index `n-1`, sifts index 0 down over logical length `n-1` and removes and
returns the last element (the structural equation below is definitional);
the length becomes `n-1` and the returned value is the minimum of the values
held before the call. -/
theorem C3_pop_spec {h : List α} {n : Nat} (hn : n = h.length) (h1n : 1 ≤ n)
    (hbound : n < 2 ^ 64) (hI : Inv h n) :
    Pop h = popLast (down (swapSeq h 0 (n - 1)) 0 (n - 1)).1 ∧
    (Pop h).1.length = n - 1 ∧
    (Pop h).2 ∈ h ∧ (∀ x ∈ h, (Pop h).2 ≤ x) := by
  subst hn
  obtain ⟨hInv2, hlen2, hval2, hperm2⟩ := Pop_spec rfl h1n hbound hI
  refine ⟨rfl, hlen2, hperm2.mem_iff.mpr (List.mem_cons_self _ _), ?_⟩
  intro x hx
  obtain ⟨j, hjlt, hje⟩ := List.mem_iff_getElem.mp hx
  rw [hval2, ← hje, ← val_eq_getElem hjlt]
  exact inv_root_min hI j (by omega)

theorem C3_pop_spec_witness :
    Inv ([1,2,3] : List Nat) 3 ∧ (Pop ([1,2,3] : List Nat)).1.length = 2 ∧
    ∀ x ∈ ([1,2,3] : List Nat), (Pop ([1,2,3] : List Nat)).2 ≤ x :=
  ⟨inv_iff_invB.mpr (by decide),
   (C3_pop_spec rfl (by decide) (by decide) (inv_iff_invB.mpr (by decide))).2.1,
   (C3_pop_spec rfl (by decide) (by decide) (inv_iff_invB.mpr (by decide))).2.2.2⟩

/-- C4: on an invariant heap of length `n ≥ 1`, `Max` returns index 0 when
`n = 1`, index 1 when `n = 2`, and otherwise index 2 exactly when
`Less(1, 2)` holds and index 1 otherwise; the returned index is in range and
the value there is the maximum of all held values. -/
theorem C4_max_spec {h : List α} {n : Nat} (hn : n = h.length) (h1n : 1 ≤ n)
    (hI : Inv h n) :
    (n = 1 → Max h = 0) ∧ (n = 2 → Max h = 1) ∧
    (3 ≤ n → Max h = if less h 1 2 then 2 else 1) ∧
    Max h < n ∧ ∀ j, j < n → val h j ≤ val h (Max h) := by
  subst hn
  have he1 : h.length = 1 → Max h = 0 := by
    intro he; unfold Max; rw [he]
  have he2 : h.length = 2 → Max h = 1 := by
    intro he; unfold Max; rw [he]
  have he3 : 3 ≤ h.length → Max h = if less h 1 2 then 2 else 1 := by
    intro he
    obtain ⟨m, hm⟩ : ∃ m, h.length = m + 3 := ⟨h.length - 3, by omega⟩
    unfold Max; rw [hm]
    rfl
  have h01 : 2 ≤ h.length → val h 0 ≤ val h 1 := by
    intro h2
    have := hI 0 (by omega) 1 (by omega) (desc_child_left 0)
    rwa [cmpOK_eq_dirLE, minLevelD_zero, dirLE_true] at this
  have hmax3 : 3 ≤ h.length → ∀ j, j < h.length → val h j ≤ val h (Max h) := by
    intro h3 j hj
    rw [he3 h3]
    have hv1 : val h 1 ≤ val h (if less h 1 2 then 2 else 1) := by
      by_cases hc : less h 1 2 = true
      · rw [if_pos hc]
        exact le_of_lt (by simpa [less] using hc)
      · rw [if_neg hc]
    have hv2 : val h 2 ≤ val h (if less h 1 2 then 2 else 1) := by
      by_cases hc : less h 1 2 = true
      · rw [if_pos hc]
      · rw [if_neg hc]
        exact le_of_not_lt (by simpa [less] using hc)
    by_cases hj0 : j = 0
    · subst hj0; exact le_trans (h01 (by omega)) hv1
    by_cases hj1 : j = 1
    · subst hj1; exact hv1
    by_cases hj2 : j = 2
    · subst hj2; exact hv2
    have hj3 : 3 ≤ j := by omega
    rcases desc_one_or_two hj3 with hd | hd
    · have := hI 1 (by omega) j hj hd
      rw [cmpOK_eq_dirLE, show minLevelD 1 = false from rfl, dirLE_false] at this
      exact le_trans this hv1
    · have := hI 2 (by omega) j hj hd
      rw [cmpOK_eq_dirLE, show minLevelD 2 = false from rfl, dirLE_false] at this
      exact le_trans this hv2
  refine ⟨he1, he2, he3, ?_, ?_⟩
  · have hc3 : h.length = 1 ∨ h.length = 2 ∨ 3 ≤ h.length := by omega
    rcases hc3 with he | he | he
    · rw [he1 he]; omega
    · rw [he2 he]; omega
    · rw [he3 he]; split <;> omega
  · intro j hj
    have hc3 : h.length = 1 ∨ h.length = 2 ∨ 3 ≤ h.length := by omega
    rcases hc3 with he | he | he
    · rw [he1 he]
      have hj0 : j = 0 := by omega
      subst hj0; exact le_refl _
    · rw [he2 he]
      by_cases hj0 : j = 0
      · subst hj0; exact h01 (by omega)
      · have hj1 : j = 1 := by omega
        subst hj1; exact le_refl _
    · exact hmax3 he j hj

theorem C4_max_spec_witness :
    Inv ([1,3,2] : List Nat) 3 ∧
    ∀ j, j < 3 → val ([1,3,2] : List Nat) j ≤ val ([1,3,2] : List Nat) (Max ([1,3,2] : List Nat)) :=
  ⟨inv_iff_invB.mpr (by decide),
   (@C4_max_spec Nat _ _ [1,3,2] 3 rfl (by decide) (inv_iff_invB.mpr (by decide))).2.2.2.2⟩

/-- C5: for every index representable on the 64-bit platform,
`isMinLevel(i)` is true exactly when `depth(i) = floor(log2(i+1))` is even;
in particular the root is on a min level. -/
theorem C5_isMinLevel_depth_parity {i : Nat} (hi : i + 1 < 2 ^ 64) :
    (isMinLevel i = true ↔ Nat.log2 (i + 1) % 2 = 0) ∧ isMinLevel 0 = true := by
  refine ⟨?_, rfl⟩
  unfold isMinLevel
  rw [bitLen_eq_log2 (by omega)]
  have hlog : Nat.log2 (i + 1) + 1 ≤ 64 := by
    have := (Nat.log2_lt (by omega : i + 1 ≠ 0)).mpr hi
    omega
  simp only [beq_iff_eq]
  omega

theorem C5_isMinLevel_witness :
    4 + 1 < 2 ^ 64 ∧ (isMinLevel 4 = true ↔ Nat.log2 (4 + 1) % 2 = 0) :=
  ⟨by decide, (C5_isMinLevel_depth_parity (by decide)).1⟩

/-- C6: the claim that `Remove(seq, i)` on an invariant heap decreases the
length by one, returns the pre-removal value at `i`, and leaves the invariant
holding is refuted by the code: on the invariant 13-element heap below the
length and return value are as claimed, but the invariant fails on the
remaining 12 elements (node 1 holds 40 while its descendant at index 7 holds
77). -/
theorem C6_remove_correctness_refuted :
    Inv ([0,40,90,1,2,3,4,10,11,12,13,60,77] : List Nat) 13 ∧
    (Remove ([0,40,90,1,2,3,4,10,11,12,13,60,77] : List Nat) 3).1.length = 12 ∧
    (Remove ([0,40,90,1,2,3,4,10,11,12,13,60,77] : List Nat) 3).2 =
      val ([0,40,90,1,2,3,4,10,11,12,13,60,77] : List Nat) 3 ∧
    ¬Inv ((Remove ([0,40,90,1,2,3,4,10,11,12,13,60,77] : List Nat) 3).1) 12 := by
  refine ⟨inv_iff_invB.mpr (by decide), ?_, ?_, ?_⟩
  · rw [Remove_eval_b]
    rfl
  · rw [Remove_eval_b]
    rfl
  · rw [Remove_eval_b, inv_iff_invB]
    decide

/-- C7 (corrected): on an invariant heap whose values are pairwise distinct,
`Fix` performs no swaps and leaves the sequence unchanged: the `down` pass
selects no candidate (it returns the unchanged sequence and reports no
movement) and the `up` pass returns the sequence unchanged.  Without
distinctness the original claim fails: equal values make the scan select a
tied candidate and swap (see the counterexample). -/
theorem C7_fix_noop_distinct {h : List α} {i : Nat} (hbound : h.length < 2 ^ 64)
    (hi : i < h.length) (hnd : h.Nodup) (hI : Inv h h.length) :
    down h i h.length = (h, false) ∧ up h i = h ∧ Fix h i = h := by
  obtain ⟨h1, h2⟩ := Fix_noop hbound hi hnd hI
  exact ⟨h1, up_noop (le_refl _) hbound hi hnd hI, h2⟩

/-- C7, counterexample to the unamended claim: the tied heap `[0,5,5,5]`
satisfies the invariant, yet `down` at index 1 (inside `Fix 1`) swaps the
equal values at indices 1 and 3 and reports movement (its flag `on > i0` can
only become true after a `Swap` call in the source), so `Fix` does perform a
swap even though no value changed. -/
theorem C7_fix_swaps_on_ties :
    Inv ([0,5,5,5] : List Nat) 4 ∧
    down ([0,5,5,5] : List Nat) 1 4 = ([0,5,5,5], true) ∧
    Fix ([0,5,5,5] : List Nat) 1 = [0,5,5,5] :=
  ⟨inv_iff_invB.mpr (by decide), down_eval_tie, Fix_eval_tie⟩

theorem C7_fix_noop_witness :
    Inv ([1,3,2] : List Nat) 3 ∧ ([1,3,2] : List Nat).Nodup ∧
    Fix ([1,3,2] : List Nat) 0 = [1,3,2] :=
  ⟨inv_iff_invB.mpr (by decide), by decide,
   (C7_fix_noop_distinct (by decide) (by decide) (by decide)
     (inv_iff_invB.mpr (by decide))).2.2⟩

/-- C8: in every iteration of the sift-down loop the scan considers the node
itself and exactly the up-to-six candidates (children `2·cur+1`, `2·cur+2`
and the four grandchildren) that lie below `n`: the break-on-first-overflow
scan of the source equals the filter-then-fold of the specification, because
the candidate list is ascending. -/
theorem C8_candidate_scan (h : List α) (m : Bool) (n cur : Nat) :
    progeny cur = [(2 * cur + 1, Relation.child), (2 * cur + 2, Relation.child),
      (4 * cur + 3, Relation.grandchild), (4 * cur + 4, Relation.grandchild),
      (4 * cur + 5, Relation.grandchild), (4 * cur + 6, Relation.grandchild)] ∧
    pickSmallest h m n (cur, Relation.self) (progeny cur) =
      pickF h m n (cur, Relation.self) (progeny cur) := by
  constructor
  · unfold progeny
    norm_num
    omega
  · exact pickSmallest_eq_pickF _ _ (progeny_pairwise cur)

/-- C9: on an empty sequence both `Pop` and `Max` fail (modelled by the
checked layer: the very first sequence access is out of range and panics)
rather than returning a value. -/
theorem C9_empty_pop_max :
    PopE ([] : List α) = none ∧ MaxE ([] : List α) = none := ⟨rfl, rfl⟩

/-- C10: `Init` and `Fix` mutate the sequence only through swaps: they
preserve the length and the multiset of held values, i.e. they permute the
sequence. -/
theorem C10_init_fix_permute {h : List α} {i : Nat} (hi : i < h.length) :
    (Init h).length = h.length ∧ (Init h).Perm h ∧
    (Fix h i).length = h.length ∧ (Fix h i).Perm h :=
  ⟨Init_length h, Init_perm h, Fix_length hi, Fix_perm hi⟩

theorem C10_init_fix_witness :
    (0 : Nat) < ([2,1] : List Nat).length ∧ (Init ([2,1] : List Nat)).Perm [2,1] ∧
    (Fix ([2,1] : List Nat) 0).Perm [2,1] :=
  ⟨by decide, (@C10_init_fix_permute Nat _ _ [2,1] 0 (by decide)).2.1,
   (@C10_init_fix_permute Nat _ _ [2,1] 0 (by decide)).2.2.2⟩

end Mmheap
